import Mathlib

/- Verification of the search module (src/search.ts): query equality and
   validity, escape unquoting, replacement templating, and the cursor-based
   nextMatch / prevMatch / matchAll / highlight operations.  The literal
   search cursor and the regular-expression cursor live in companion files
   (cursor.ts, regexp.ts) that are not part of this repository snapshot;
   where their behaviour is needed it is modelled from the specification
   (section 4.1: forward scan, candidate positions compared character by
   character against the normalized pattern, a match that ends exactly at
   the range end is included, overlapping advance moves one unit and
   non-overlapping advance moves past the match end). -/

/-- A match record: the half-open document range of a match
(`{from, to}` in the source; `from` is a reserved word in Lean). -/
structure MatchRec where
  mFrom : Nat
  mTo : Nat
  deriving DecidableEq, Repr

/-- The text source (the external `Text` collaborator): a character sequence
of known total length; `sliceString(f, t)` is the characters at offsets
`f, f+1, …, t-1`, each given by `char`. -/
structure TextDoc where
  length : Nat
  char : Nat → Char

/-- Build a document from an explicit character list (out-of-range reads,
which no scan performs, default to a blank). -/
def TextDoc.ofList (l : List Char) : TextDoc :=
  ⟨l.length, fun i => l.getD i ' '⟩

/-- The `SearchQuery` value (src/search.ts lines 82-132): the six
configuration fields.  The derived fields `unquoted` and `valid` are
definitions below, exactly as the constructor derives them. -/
structure SearchQuery where
  search : List Char
  caseSensitive : Bool
  literal : Bool
  regexp : Bool
  replace : List Char
  wholeWord : Bool

/-- The escape expansion used by `SearchQuery.unquote` (src/search.ts line
137): the global replacement of `\n`, `\r`, `\t` and `\\` by newline,
carriage return, tab and a single backslash; the regex `/\\([nrt\\])/g`
scans left to right, a backslash followed by any other character is copied
and scanning resumes at that following character. -/
def unquoteRepl : List Char → List Char
  | [] => []
  | [c] => [c]
  | c1 :: c2 :: rest =>
    if c1 = '\\' ∧ (c2 = 'n' ∨ c2 = 'r' ∨ c2 = 't' ∨ c2 = '\\') then
      (if c2 = 'n' then '\n' else if c2 = 'r' then '\r'
       else if c2 = 't' then '\t' else '\\') :: unquoteRepl rest
    else c1 :: unquoteRepl (c2 :: rest)

/-- `SearchQuery.unquote` (src/search.ts lines 135-138): the identity when
the `literal` flag is set, otherwise the escape expansion. -/
def SearchQuery.unquote (q : SearchQuery) (text : List Char) : List Char :=
  if q.literal then text else unquoteRepl text

/-- The derived `unquoted` field (src/search.ts line 130). -/
def SearchQuery.unquoted (q : SearchQuery) : List Char :=
  q.unquote q.search

/-- Modelled from the spec: `validRegExp` comes from src/regexp.ts, which is
not in the snapshot; per the spec a regexp pattern is valid iff it compiles.
Every claim proved in this file uses only non-regexp queries, for which
`SearchQuery.valid` never consults this definition. -/
def validRegExp (_pat : List Char) : Bool := true

/-- The derived `valid` field (src/search.ts line 129): the search string is
non-empty and, for a regexp query, the pattern compiles. -/
def SearchQuery.valid (q : SearchQuery) : Bool :=
  !q.search.isEmpty && (!q.regexp || validRegExp q.search)

/-- `SearchQuery.eq` (src/search.ts lines 141-145), field comparisons in
source order. -/
def SearchQuery.eq (q other : SearchQuery) : Bool :=
  q.search == other.search && q.replace == other.replace &&
  q.caseSensitive == other.caseSensitive && q.regexp == other.regexp &&
  q.wholeWord == other.wholeWord

/-- The per-character normalization `stringCursor` passes to the literal
cursor (src/search.ts line 181): lower-casing unless the query is
case-sensitive. -/
def qNorm (q : SearchQuery) : Char → Char :=
  if q.caseSensitive then id else Char.toLower

/-- Modelled from the spec (section 4.1, cursor.ts not in the snapshot):
character-by-character comparison of the normalized document text starting
at offset `i` against the normalized pattern tail. -/
def matchesFrom (d : TextDoc) (norm : Char → Char) : List Char → Nat → Bool
  | [], _ => true
  | c :: cs, i => (norm (d.char i) == norm c) && matchesFrom d norm cs (i + 1)

/-- Modelled from the spec: offset `f` begins an occurrence of the
normalized pattern. -/
def matchesAt (d : TextDoc) (pat : List Char) (norm : Char → Char) (f : Nat) : Bool :=
  matchesFrom d norm pat f

/-- The acceptance predicate of the cursor `stringCursor` builds
(src/search.ts lines 179-183): normalized slice equality plus, when
`spec.wholeWord` is set, the whole-word boundary test (`stringWordTest`,
lines 185-196).  That test is built from the external locale-aware
character categorizer (`state.charCategorizer`) and cluster breaks, and its
verdict — whether both match edges are non-word-adjacent — depends only on
the document and the match's edge offsets, so it is taken as a parameter
`test` on the match range; when `wholeWord` is off no test is passed
(line 182) and the slice comparison alone decides. -/
def stringAccept (q : SearchQuery) (d : TextDoc) (test : Nat → Nat → Bool)
    (f : Nat) : Bool :=
  matchesAt d q.unquoted (qNorm q) f &&
    (!q.wholeWord || test f (f + q.unquoted.length))

/-- Number of candidate start offsets in `[lo, hi)` for a pattern of length
`len`: the offsets `f` with `lo ≤ f` and `f + len ≤ hi` (a match ending
exactly at the range end is included, spec section 4.1). -/
def candCount (lo hi len : Nat) : Nat := hi + 1 - (len + lo)

/-- Modelled from the spec: first accepted candidate at or after `lo` among
the next `count` candidates — the first match produced by a freshly built
cursor (overlapping and non-overlapping advance agree on the first match). -/
def firstAccepted (acc : Nat → Bool) : Nat → Nat → Option Nat
  | _, 0 => none
  | lo, count + 1 => if acc lo then some lo else firstAccepted acc (lo + 1) count

/-- Greatest accepted candidate in `[lo, lo + count)` (top-down helper used
to characterize the forward drain below). -/
def greatestAcc (acc : Nat → Bool) (lo : Nat) : Nat → Option Nat
  | 0 => none
  | count + 1 => if acc (lo + count) then some (lo + count) else greatestAcc acc lo count

/-- Modelled from the spec: drain a cursor forward with overlapping advance,
keeping the last match seen (`while (!cursor.nextOverlapping().done) range =
cursor.value` in src/search.ts line 215), starting from `best`. -/
def drainLastAux (acc : Nat → Bool) : Nat → Nat → Option Nat → Option Nat
  | _, 0, best => best
  | lo, count + 1, best =>
    drainLastAux acc (lo + 1) count (if acc lo then some lo else best)

/-- First match of a literal cursor over `[lo, hi)` (the first value of
`stringCursor(spec, state, lo, hi)`), modelled from the spec, using the
cursor's full acceptance predicate including the whole-word test wiring of
src/search.ts line 182. -/
def stringCursorFirst (q : SearchQuery) (d : TextDoc) (test : Nat → Nat → Bool)
    (lo hi : Nat) : Option Nat :=
  firstAccepted (stringAccept q d test) lo (candCount lo hi q.unquoted.length)

/-- Last match of a literal cursor over `[lo, hi)` drained with overlapping
advance, modelled from the spec, using the cursor's full acceptance
predicate. -/
def stringCursorLast (q : SearchQuery) (d : TextDoc) (test : Nat → Nat → Bool)
    (lo hi : Nat) : Option Nat :=
  drainLastAux (stringAccept q d test) lo (candCount lo hi q.unquoted.length) none

/-- Modelled from the spec: full non-overlapping drain of a literal cursor
(`next()` advances past the end of each match, section 4.1); `fuel` bounds
the number of scan steps and is always supplied large enough for a
non-empty pattern. -/
def nonOverlapScan (acc : Nat → Bool) (len hi : Nat) : Nat → Nat → List Nat
  | _, 0 => []
  | lo, fuel + 1 =>
    if lo + len ≤ hi then
      if acc lo then lo :: nonOverlapScan acc len hi (lo + len) fuel
      else nonOverlapScan acc len hi (lo + 1) fuel
    else []

/-- Count of accepted candidates in `[lo, lo + count)`. -/
def occCount (acc : Nat → Bool) : Nat → Nat → Nat
  | _, 0 => 0
  | lo, count + 1 => (if acc lo then 1 else 0) + occCount acc (lo + 1) count

/-- `FindPrev.ChunkSize` (src/search.ts line 177). -/
def chunkSize : Nat := 10000

/-- `StringQuery.nextMatch` (src/search.ts lines 203-207): scan
`[curTo, doc.length)`; if that cursor is done, scan `[0, curFrom)`.
`test` is the whole-word boundary test threaded into both cursors. -/
def stringNextMatch (q : SearchQuery) (d : TextDoc) (test : Nat → Nat → Bool)
    (curFrom curTo : Nat) : Option MatchRec :=
  match stringCursorFirst q d test curTo d.length with
  | some f => some ⟨f, f + q.unquoted.length⟩
  | none =>
    Option.map (fun f => ⟨f, f + q.unquoted.length⟩)
      (stringCursorFirst q d test 0 curFrom)

/-- The chunk loop of `StringQuery.prevMatchInRange` (src/search.ts lines
211-220), abstracted over the acceptance predicate: scan the chunk
`[max(lo, pos - chunkSize - len), pos)` keeping the last match; return it if
found, stop if the chunk start reached `lo`, otherwise move `pos` down by
`chunkSize`.  `fuel` bounds the iteration count; the wrapper below supplies
enough fuel that the zero case (returning no match) is never reached. -/
def prevMatchAux (acc : Nat → Bool) (lo len : Nat) : Nat → Nat → Option Nat
  | _, 0 => none
  | pos, fuel + 1 =>
    let start := max lo (pos - (chunkSize + len))
    match drainLastAux acc start (candCount start pos len) none with
    | some r => some r
    | none => if start = lo then none else prevMatchAux acc lo len (pos - chunkSize) fuel

/-- `StringQuery.prevMatchInRange` (src/search.ts lines 211-220), with the
cursor's full acceptance predicate for each chunk scan. -/
def stringPrevMatchInRange (q : SearchQuery) (d : TextDoc) (test : Nat → Nat → Bool)
    (lo hi : Nat) : Option MatchRec :=
  Option.map (fun f => ⟨f, f + q.unquoted.length⟩)
    (prevMatchAux (stringAccept q d test) lo q.unquoted.length hi (hi + 2))

/-- `StringQuery.prevMatch` (src/search.ts lines 222-225): try
`[0, curFrom)`, then `[curTo, doc.length)`. -/
def stringPrevMatch (q : SearchQuery) (d : TextDoc) (test : Nat → Nat → Bool)
    (curFrom curTo : Nat) : Option MatchRec :=
  match stringPrevMatchInRange q d test 0 curFrom with
  | some m => some m
  | none => stringPrevMatchInRange q d test curTo d.length

/-- The full non-overlapping match list of a literal query over the whole
document (the sequence `StringQuery.matchAll` drains, src/search.ts line
230-231). -/
def stringMatchList (q : SearchQuery) (d : TextDoc) (test : Nat → Nat → Bool) : List Nat :=
  nonOverlapScan (stringAccept q d test) q.unquoted.length
    d.length 0 (d.length + 1)

/-- The collection loop shared by `StringQuery.matchAll` and
`RegExpQuery.matchAll` (src/search.ts lines 229-236 and 302-309): push each
match unless the count already reached `limit`, in which case the whole
result is `null`. -/
def matchAllAux {α : Type} (limit : Nat) : List α → Nat → Option (List α)
  | [], _ => some []
  | m :: rest, cnt =>
    if limit ≤ cnt then none
    else Option.map (fun l => m :: l) (matchAllAux limit rest (cnt + 1))

/-- The matchAll loop applied to a cursor's match sequence. -/
def matchAllOf {α : Type} (ms : List α) (limit : Nat) : Option (List α) :=
  matchAllAux limit ms 0

/-- `StringQuery.matchAll` (src/search.ts lines 229-236). -/
def stringMatchAll (q : SearchQuery) (d : TextDoc) (test : Nat → Nat → Bool)
    (limit : Nat) : Option (List MatchRec) :=
  matchAllOf ((stringMatchList q d test).map (fun f => ⟨f, f + q.unquoted.length⟩)) limit

/-- `StringQuery.highlight` (src/search.ts lines 238-242): drain a cursor
over the margin-expanded window `[max(0, lo - len), min(hi + len,
doc.length))` (in `Nat`, `lo - len` already clamps at `0`). -/
def stringHighlight (q : SearchQuery) (d : TextDoc) (test : Nat → Nat → Bool)
    (lo hi : Nat) : List MatchRec :=
  (nonOverlapScan (stringAccept q d test) q.unquoted.length
      (min (hi + q.unquoted.length) d.length) (lo - q.unquoted.length)
      (d.length + 1)).map
    (fun f => ⟨f, f + q.unquoted.length⟩)

/-- Number of cursors `StringQuery.nextMatch` constructs (src/search.ts
lines 203-207): one for `[curTo, doc.length)`, and a second one for
`[0, curFrom)` when the first is drained without a match.  The code never
consults `valid` here, so this is at least 1 for every query. -/
def stringNextMatchCursorCount (q : SearchQuery) (d : TextDoc)
    (test : Nat → Nat → Bool) (_curFrom curTo : Nat) : Nat :=
  match stringCursorFirst q d test curTo d.length with
  | some _ => 1
  | none => 2

/-- Instrumented chunk trace of the `StringQuery.prevMatchInRange` loop: the
list of `(start, pos)` scan ranges, in scan order, produced by the same
control flow as `prevMatchAux`. -/
def prevChunksAux (acc : Nat → Bool) (lo len : Nat) : Nat → Nat → List (Nat × Nat)
  | _, 0 => []
  | pos, fuel + 1 =>
    let start := max lo (pos - (chunkSize + len))
    (start, pos) ::
      match drainLastAux acc start (candCount start pos len) none with
      | some _ => []
      | none => if start = lo then [] else prevChunksAux acc lo len (pos - chunkSize) fuel

/-- Chunk trace of a full `StringQuery.prevMatchInRange` call over `[lo, hi)`. -/
def stringPrevChunks (acc : Nat → Bool) (lo len hi : Nat) : List (Nat × Nat) :=
  prevChunksAux acc lo len hi (hi + 2)

/-- The loop of `RegExpQuery.prevMatchInRange` (src/search.ts lines
279-287), abstracted over `last start hi` = the last match of a fresh regexp
cursor over `[start, hi)` (regexp.ts is not in the snapshot, so the cursor
drain is a parameter): for `size = 1, 2, …` scan `[max(lo, hi - size *
chunkSize), hi)`; return the match if the chunk start is the range start or
the match begins more than 10 units past the chunk start; stop with no
match when the chunk start reached `lo`.  `fuel` bounds the iteration
count; the zero case coincides with the loop's final iteration (where
`start = lo`) and is unreachable for the wrapper's fuel. -/
def rPrevAux (last : Nat → Nat → Option MatchRec) (lo hi : Nat) :
    Nat → Nat → Option MatchRec
  | _, 0 => last lo hi
  | size, fuel + 1 =>
    let start := max lo (hi - size * chunkSize)
    match last start hi with
    | some r =>
      if start = lo ∨ start + 10 < r.mFrom then some r
      else if start = lo then none
      else rPrevAux last lo hi (size + 1) fuel
    | none => if start = lo then none else rPrevAux last lo hi (size + 1) fuel

/-- `RegExpQuery.prevMatchInRange` (src/search.ts lines 279-287). -/
def rPrevMatchInRange (last : Nat → Nat → Option MatchRec) (lo hi : Nat) :
    Option MatchRec :=
  rPrevAux last lo hi 1 (hi + 2)

/-- `RegExpQuery.prevMatch` (src/search.ts lines 289-292). -/
def rPrevMatch (last : Nat → Nat → Option MatchRec) (docLen curFrom curTo : Nat) :
    Option MatchRec :=
  match rPrevMatchInRange last 0 curFrom with
  | some m => some m
  | none => rPrevMatchInRange last curTo docLen

/-- `RegExpQuery.nextMatch` (src/search.ts lines 273-277), abstracted over
`first start hi` = the first match of a fresh regexp cursor over
`[start, hi)`. -/
def rNextMatch (first : Nat → Nat → Option MatchRec) (docLen curFrom curTo : Nat) :
    Option MatchRec :=
  match first curTo docLen with
  | some m => some m
  | none => first 0 curFrom

/-- Instrumented chunk trace of the `RegExpQuery.prevMatchInRange` loop: the
list of `(start, hi)` scan ranges, in scan order. -/
def rPrevTraceAux (last : Nat → Nat → Option MatchRec) (lo hi : Nat) :
    Nat → Nat → List (Nat × Nat)
  | _, 0 => []
  | size, fuel + 1 =>
    let start := max lo (hi - size * chunkSize)
    (start, hi) ::
      match last start hi with
      | some r =>
        if start = lo ∨ start + 10 < r.mFrom then []
        else if start = lo then []
        else rPrevTraceAux last lo hi (size + 1) fuel
      | none => if start = lo then [] else rPrevTraceAux last lo hi (size + 1) fuel

/-- Chunk trace of a full `RegExpQuery.prevMatchInRange` call over `[lo, hi)`. -/
def rPrevTrace (last : Nat → Nat → Option MatchRec) (lo hi : Nat) : List (Nat × Nat) :=
  rPrevTraceAux last lo hi 1 (hi + 2)

/-- The numeric coercion JavaScript applies to the captured character of the
replacement-template regex `/\$([$&\d+])/`: a digit maps to its value, `+`
(the one non-digit the character class also admits) maps to NaN, modelled as
`none`. -/
def jsDigitVal (c : Char) : Option Nat :=
  if c.isDigit then some (c.toNat - 48) else none

/-- The `$`-template expansion of `RegExpQuery.getReplacement`
(src/search.ts lines 294-300): the global replacement of `/\$([$&\d+])/g`
where `$$` yields `$`, `$&` yields submatch 0, a digit `d` with `d ≠ 0` and
`d < subs.length` yields submatch `d`, and anything else leaves the matched
text unchanged; a `$` followed by any other character is copied and
scanning resumes at that character. -/
def expandDollar (subs : List (List Char)) : List Char → List Char
  | [] => []
  | [c] => [c]
  | c1 :: c2 :: rest =>
    if c1 = '$' ∧ (c2 = '$' ∨ c2 = '&' ∨ c2.isDigit = true ∨ c2 = '+') then
      (if c2 = '$' then ['$']
       else if c2 = '&' then subs.getD 0 []
       else
         match jsDigitVal c2 with
         | some v => if c2 ≠ '0' ∧ v < subs.length then subs.getD v [] else ['$', c2]
         | none => ['$', c2]) ++ expandDollar subs rest
    else c1 :: expandDollar subs (c2 :: rest)

/-- `RegExpQuery.getReplacement` (src/search.ts lines 294-300): expand the
template against the submatch array, then unquote. -/
def regGetReplacement (q : SearchQuery) (subs : List (List Char)) : List Char :=
  q.unquote (expandDollar subs q.replace)

/-- `searchCommand` (src/search.ts lines 390-395): run `f` only when the
search state exists and its query is valid; otherwise open the search panel
(which returns `true`).  The search state is represented by its query. -/
def searchCommand (f : SearchQuery → Bool) (st : Option SearchQuery) : Bool :=
  match st with
  | some q => if q.valid = true then f q else true
  | none => true

/-- The gate of the search highlighter (src/search.ts lines 372-384): no
decorations when the panel is closed or the query is invalid, otherwise the
matches `query.highlight` reports over the visible range (a single visible
range is modelled). -/
def highlightDecorations (panelOpen : Bool) (q : SearchQuery) (d : TextDoc)
    (test : Nat → Nat → Bool) (vFrom vTo : Nat) : List MatchRec :=
  if !panelOpen || !q.valid then [] else stringHighlight q d test vFrom vTo

/-- Specification predicate: offset `f` starts an occurrence of the pattern
fully contained in `[lo, hi)` (a match ending exactly at `hi` included). -/
def occIn (d : TextDoc) (pat : List Char) (norm : Char → Char) (lo hi f : Nat) : Prop :=
  lo ≤ f ∧ f + pat.length ≤ hi ∧ matchesAt d pat norm f = true

instance (d : TextDoc) (pat : List Char) (norm : Char → Char) (lo hi f : Nat) :
    Decidable (occIn d pat norm lo hi f) := by
  unfold occIn; infer_instance

/-- Specification predicate: offset `f` starts a match the literal cursor
accepts — normalized slice equality plus, for a whole-word query, the
boundary test — fully contained in `[lo, hi)`. -/
def accIn (q : SearchQuery) (d : TextDoc) (test : Nat → Nat → Bool)
    (lo hi f : Nat) : Prop :=
  lo ≤ f ∧ f + q.unquoted.length ≤ hi ∧ stringAccept q d test f = true

instance (q : SearchQuery) (d : TextDoc) (test : Nat → Nat → Bool) (lo hi f : Nat) :
    Decidable (accIn q d test lo hi f) := by
  unfold accIn; infer_instance

/-- A trivially satisfied boundary test, used to instantiate examples on
queries without whole-word matching, where the test is never consulted. -/
def anyTest : Nat → Nat → Bool := fun _ _ => true

/-- First option if present, else the fallback (the shape of a drained
cursor's value: the last match seen, or the running best). -/
def orFallback (o : Option Nat) (b : Option Nat) : Option Nat :=
  match o with
  | some f => some f
  | none => b

/-- The cursor-drain function of a document with no regexp matches at all
(a fresh cursor over any range yields nothing). -/
def noMatches : Nat → Nat → Option MatchRec := fun _ _ => none

/-- A cursor-drain function whose last match over `[s, hi)` always starts
three units past `s` — every chunk's candidate sits near the chunk start. -/
def lastNear : Nat → Nat → Option MatchRec := fun s _ => some ⟨s + 3, s + 4⟩

/-- An acceptance predicate that never matches (a document containing no
occurrence of the pattern). -/
def accNone : Nat → Bool := fun _ => false

/-- Concrete query: literal search for `a`, all flags off. -/
def qA : SearchQuery := ⟨"a".toList, false, false, false, [], false⟩

/-- Concrete query agreeing with `qA` on everything except the `literal`
flag. -/
def qB : SearchQuery := ⟨"a".toList, false, true, false, [], false⟩

/-- Concrete non-literal query used for unquoting examples. -/
def qU : SearchQuery := ⟨"x".toList, false, false, false, [], false⟩

/-- Concrete regexp query of spec section 8 item 5: pattern `(a)(b)`,
replacement `$2$1-$&`. -/
def qRegEx : SearchQuery := ⟨"(a)(b)".toList, false, false, true, "$2$1-$&".toList, false⟩

/-- Variant of `qRegEx` with replacement `$$`. -/
def qDollars : SearchQuery := ⟨"(a)(b)".toList, false, false, true, "$$".toList, false⟩

/-- Variant of `qRegEx` with replacement `$9` (out of range for three
submatches). -/
def qNine : SearchQuery := ⟨"(a)(b)".toList, false, false, true, "$9".toList, false⟩

/-- Variant of `qRegEx` with replacement `$0` (ignored index). -/
def qZero : SearchQuery := ⟨"(a)(b)".toList, false, false, true, "$0".toList, false⟩

/-- The submatch array of the match of `(a)(b)` against `ab`. -/
def subsAB : List (List Char) := ["ab".toList, "a".toList, "b".toList]

/-- Concrete case-sensitive literal query for the pattern `aa`. -/
def qAA : SearchQuery := ⟨"aa".toList, true, false, false, [], false⟩

/-- Concrete document `aaa`. -/
def dAAA : TextDoc := TextDoc.ofList "aaa".toList

/-- Concrete invalid query: empty search string. -/
def qInvalid : SearchQuery := ⟨[], false, false, false, [], false⟩

/-- Concrete one-character document. -/
def dEx : TextDoc := TextDoc.ofList "a".toList

/-- Concrete document `aba`. -/
def dABA : TextDoc := TextDoc.ofList "aba".toList

/-- Unfolding equation for the escape expansion on a two-character head. -/
theorem unquoteRepl_cons_cons (c1 c2 : Char) (rest : List Char) :
    unquoteRepl (c1 :: c2 :: rest) =
      if c1 = '\\' ∧ (c2 = 'n' ∨ c2 = 'r' ∨ c2 = 't' ∨ c2 = '\\') then
        (if c2 = 'n' then '\n' else if c2 = 'r' then '\r'
         else if c2 = 't' then '\t' else '\\') :: unquoteRepl rest
      else c1 :: unquoteRepl (c2 :: rest) := rfl

/-- Unfolding equation for the template expansion on a two-character head. -/
theorem expandDollar_cons_cons (subs : List (List Char)) (c1 c2 : Char) (rest : List Char) :
    expandDollar subs (c1 :: c2 :: rest) =
      if c1 = '$' ∧ (c2 = '$' ∨ c2 = '&' ∨ c2.isDigit = true ∨ c2 = '+') then
        (if c2 = '$' then ['$']
         else if c2 = '&' then subs.getD 0 []
         else
           match jsDigitVal c2 with
           | some v => if c2 ≠ '0' ∧ v < subs.length then subs.getD v [] else ['$', c2]
           | none => ['$', c2]) ++ expandDollar subs rest
      else c1 :: expandDollar subs (c2 :: rest) := rfl

/-- Claim C1 helper: a non-backslash head character is copied unchanged by
the escape expansion. -/
theorem unquoteRepl_cons_ne (c : Char) (r : List Char) (hc : c ≠ '\\') :
    unquoteRepl (c :: r) = c :: unquoteRepl r := by
  cases r with
  | nil => rfl
  | cons c2 rest =>
    rw [unquoteRepl_cons_cons, if_neg (fun h => hc h.1)]

/-- Helper for the replacement template: a non-`$` head character is copied
unchanged by the template expansion. -/
theorem expandDollar_cons_ne (subs : List (List Char)) (c : Char) (r : List Char)
    (hc : c ≠ '$') : expandDollar subs (c :: r) = c :: expandDollar subs r := by
  cases r with
  | nil => rfl
  | cons c2 rest =>
    rw [expandDollar_cons_cons, if_neg (fun h => hc h.1)]

/-- Claim C1 counterexample: `SearchQuery.eq` does not compare the
literal-escapes flag, so two queries that differ in that field (and agree
on the other five) compare equal — the claimed "all six fields" equivalence
fails in the only-if direction. -/
theorem eq_ignores_literal_flag :
    SearchQuery.eq qA qB = true ∧ qA.literal ≠ qB.literal := by
  exact ⟨by decide, by decide⟩

/-- Claim C1 (amended): `q1.eq(q2)` returns true iff the five fields that
the code compares — search pattern, replacement, caseSensitive, regexp and
wholeWord — are pairwise equal; the literal-escapes flag is not compared. -/
theorem eq_iff_five_fields (q o : SearchQuery) :
    SearchQuery.eq q o = true ↔
      q.search = o.search ∧ q.replace = o.replace ∧
      q.caseSensitive = o.caseSensitive ∧ q.regexp = o.regexp ∧
      q.wholeWord = o.wholeWord := by
  unfold SearchQuery.eq
  simp [Bool.and_eq_true, and_assoc]

/-- Claim C10: for a non-literal query `unquote` expands `\n`, `\r`, `\t`
to newline, carriage return and tab, expands `\\` to a single backslash,
and leaves every other character sequence unchanged (a backslash followed
by any other character, and any non-backslash character, are copied
verbatim); when the `literal` flag is set the input is returned unchanged.
Closed example: `a\nb\\c\qd` (source text) unquotes to `a`, newline, `b`,
backslash, `c`, backslash, `q`, `d`. -/
theorem unquote_expands_escapes :
    (∀ (q : SearchQuery) (t : List Char), q.literal = true → q.unquote t = t) ∧
    (∀ r, unquoteRepl ('\\' :: 'n' :: r) = '\n' :: unquoteRepl r) ∧
    (∀ r, unquoteRepl ('\\' :: 'r' :: r) = '\r' :: unquoteRepl r) ∧
    (∀ r, unquoteRepl ('\\' :: 't' :: r) = '\t' :: unquoteRepl r) ∧
    (∀ r, unquoteRepl ('\\' :: '\\' :: r) = '\\' :: unquoteRepl r) ∧
    (∀ (c : Char) (r : List Char), c ≠ 'n' → c ≠ 'r' → c ≠ 't' → c ≠ '\\' →
      unquoteRepl ('\\' :: c :: r) = '\\' :: c :: unquoteRepl r) ∧
    (∀ (c : Char) (r : List Char), c ≠ '\\' →
      unquoteRepl (c :: r) = c :: unquoteRepl r) ∧
    (∀ (q : SearchQuery) (t : List Char), q.literal = false →
      q.unquote t = unquoteRepl t) ∧
    qU.unquote "a\\nb\\\\c\\qd".toList = "a\nb\\c\\qd".toList := by
  refine ⟨?_, ?_, ?_, ?_, ?_, ?_, ?_, ?_, ?_⟩
  · intro q t h
    unfold SearchQuery.unquote
    rw [if_pos h]
  · intro r; rfl
  · intro r; rfl
  · intro r; rfl
  · intro r; rfl
  · intro c r h1 h2 h3 h4
    rw [unquoteRepl_cons_cons, if_neg, unquoteRepl_cons_ne c r h4]
    rintro ⟨-, h | h | h | h⟩
    exacts [h1 h, h2 h, h3 h, h4 h]
  · exact unquoteRepl_cons_ne
  · intro q t h
    unfold SearchQuery.unquote
    rw [if_neg (by simp [h])]
  · decide

/-- Claim C10 witness: the general equations applied at concrete inputs. -/
theorem unquote_expands_escapes_witness :
    ('q' ≠ '\\') ∧ unquoteRepl ('q' :: 'x' :: []) = 'q' :: unquoteRepl ('x' :: []) :=
  ⟨by decide, unquote_expands_escapes.2.2.2.2.2.2.1 'q' ['x'] (by decide)⟩

/-- Claim C8: `RegExpQuery.getReplacement` expands `$$` to a literal `$`,
`$&` to submatch 0, and `$d` for a single digit `d` to submatch `d` when
`d ≠ 0` and `d` is in range of the submatch array; any other `$`-sequence
(`$0`, an out-of-range digit, or a `$` followed by anything else) is passed
through unchanged, and non-`$` characters are copied verbatim.  Closed
examples from the spec: pattern `(a)(b)` with submatches `[ab, a, b]` and
replacement `$2$1-$&` yields `ba-ab`; `$$` yields `$`; `$9` stays `$9`;
`$0` stays `$0`. -/
theorem getReplacement_expands_template :
    (∀ subs rest, expandDollar subs ('$' :: '$' :: rest) = '$' :: expandDollar subs rest) ∧
    (∀ subs rest, expandDollar subs ('$' :: '&' :: rest) =
      subs.getD 0 [] ++ expandDollar subs rest) ∧
    (∀ (subs : List (List Char)) (rest : List Char) (c : Char) (v : Nat),
      jsDigitVal c = some v → c ≠ '0' → v < subs.length →
      expandDollar subs ('$' :: c :: rest) = subs.getD v [] ++ expandDollar subs rest) ∧
    (∀ (subs : List (List Char)) (rest : List Char) (c : Char) (v : Nat),
      jsDigitVal c = some v → (c = '0' ∨ subs.length ≤ v) →
      expandDollar subs ('$' :: c :: rest) = '$' :: c :: expandDollar subs rest) ∧
    (∀ (subs : List (List Char)) (rest : List Char) (c : Char),
      c ≠ '$' → c ≠ '&' → jsDigitVal c = none →
      expandDollar subs ('$' :: c :: rest) = '$' :: c :: expandDollar subs rest) ∧
    (∀ (subs : List (List Char)) (rest : List Char) (c : Char), c ≠ '$' →
      expandDollar subs (c :: rest) = c :: expandDollar subs rest) ∧
    regGetReplacement qRegEx subsAB = "ba-ab".toList ∧
    regGetReplacement qDollars subsAB = "$".toList ∧
    regGetReplacement qNine subsAB = "$9".toList ∧
    regGetReplacement qZero subsAB = "$0".toList := by
  have hdig : ∀ (c : Char) (v : Nat), jsDigitVal c = some v → c.isDigit = true := by
    intro c v hv
    by_contra h
    simp [jsDigitVal, h] at hv
  refine ⟨?_, ?_, ?_, ?_, ?_, ?_, ?_, ?_, ?_, ?_⟩
  · intro subs rest; rfl
  · intro subs rest; rfl
  · intro subs rest c v hv h0 hlen
    have hd := hdig c v hv
    have hne1 : c ≠ '$' := fun h => absurd (h ▸ hd) (by decide)
    have hne2 : c ≠ '&' := fun h => absurd (h ▸ hd) (by decide)
    rw [expandDollar_cons_cons, if_pos ⟨rfl, Or.inr (Or.inr (Or.inl hd))⟩,
      if_neg hne1, if_neg hne2, hv]
    show (if c ≠ '0' ∧ v < subs.length then subs.getD v [] else ['$', c]) ++
        expandDollar subs rest = subs.getD v [] ++ expandDollar subs rest
    rw [if_pos ⟨h0, hlen⟩]
  · intro subs rest c v hv hbad
    have hd := hdig c v hv
    have hne1 : c ≠ '$' := fun h => absurd (h ▸ hd) (by decide)
    have hne2 : c ≠ '&' := fun h => absurd (h ▸ hd) (by decide)
    rw [expandDollar_cons_cons, if_pos ⟨rfl, Or.inr (Or.inr (Or.inl hd))⟩,
      if_neg hne1, if_neg hne2, hv]
    show (if c ≠ '0' ∧ v < subs.length then subs.getD v [] else ['$', c]) ++
        expandDollar subs rest = '$' :: c :: expandDollar subs rest
    rw [if_neg]
    · rfl
    · rintro ⟨hz, hlt⟩
      rcases hbad with h | h
      · exact hz h
      · omega
  · intro subs rest c h1 h2 h3
    have hd : c.isDigit = false := by
      by_contra h
      simp [jsDigitVal, eq_true_of_ne_false h] at h3
    by_cases hp : c = '+'
    · subst hp
      show expandDollar subs ('$' :: '+' :: rest) = '$' :: '+' :: expandDollar subs rest
      rfl
    · rw [expandDollar_cons_cons, if_neg, expandDollar_cons_ne subs c rest h1]
      rintro ⟨-, h | h | h | h⟩
      exacts [h1 h, h2 h, by simp [h] at hd, hp h]
  · intro subs rest c h
    exact expandDollar_cons_ne subs c rest h
  · decide
  · decide
  · decide
  · decide

/-- Claim C8 witness: the digit-expansion equation applied at a concrete
input. -/
theorem getReplacement_expands_template_witness :
    jsDigitVal '1' = some 1 ∧ ('1' : Char) ≠ '0' ∧ 1 < subsAB.length ∧
    expandDollar subsAB ('$' :: '1' :: 'x' :: []) =
      subsAB.getD 1 [] ++ expandDollar subsAB ('x' :: []) :=
  ⟨by decide, by decide, by decide,
    getReplacement_expands_template.2.2.1 subsAB ['x'] '1' 1 (by decide) (by decide)
      (by decide)⟩

/-- The matchAll collection loop returns the complete list when the total
count stays within the limit. -/
theorem matchAllAux_some {α : Type} (limit : Nat) (ms : List α) :
    ∀ cnt, cnt + ms.length ≤ limit → matchAllAux limit ms cnt = some ms := by
  induction ms with
  | nil => intro cnt _; rfl
  | cons m rest ih =>
    intro cnt h
    simp only [List.length_cons] at h
    show (if limit ≤ cnt then none
          else Option.map (fun l => m :: l) (matchAllAux limit rest (cnt + 1)))
        = some (m :: rest)
    rw [if_neg (by omega), ih (cnt + 1) (by omega)]
    rfl

/-- The matchAll collection loop, started at a count within the limit,
returns `null` exactly when the total count passes the limit. -/
theorem matchAllAux_none {α : Type} (limit : Nat) (ms : List α) :
    ∀ cnt, cnt ≤ limit → (matchAllAux limit ms cnt = none ↔ limit < cnt + ms.length) := by
  induction ms with
  | nil =>
    intro cnt hc
    simp [matchAllAux]
    omega
  | cons m rest ih =>
    intro cnt hc
    show (if limit ≤ cnt then none
          else Option.map (fun l => m :: l) (matchAllAux limit rest (cnt + 1)))
        = none ↔ limit < cnt + (m :: rest).length
    simp only [List.length_cons]
    by_cases h : limit ≤ cnt
    · rw [if_pos h]
      simp
      omega
    · rw [if_neg h]
      have h1 := ih (cnt + 1) (by omega)
      constructor
      · intro hn
        have hrest : matchAllAux limit rest (cnt + 1) = none := by
          rcases hmr : matchAllAux limit rest (cnt + 1) with _ | l
          · rfl
          · rw [hmr] at hn
            simp at hn
        have := h1.mp hrest
        omega
      · intro hlt
        rw [h1.mpr (by omega)]
        rfl

/-- Claim C7: `matchAll(state, limit)` returns `null` exactly when the
number of matches of the query's cursor over the whole document exceeds
`limit`; otherwise it returns the complete list of matches (possibly empty,
possibly of length exactly `limit`), so the over-limit result (`none`) is
distinct from the zero-matches result (`some []`).  Stated for the literal
query's `matchAll` (for every boundary test) and, since
`RegExpQuery.matchAll` (src/search.ts lines 302-309) is the same loop
applied to its cursor's match sequence, for the collection loop applied to
an arbitrary match sequence. -/
theorem matchAll_limit_behavior :
    (∀ (q : SearchQuery) (d : TextDoc) (test : Nat → Nat → Bool) (limit : Nat),
      (stringMatchAll q d test limit = none ↔ limit < (stringMatchList q d test).length) ∧
      ((stringMatchList q d test).length ≤ limit →
        stringMatchAll q d test limit =
          some ((stringMatchList q d test).map (fun f => ⟨f, f + q.unquoted.length⟩)))) ∧
    (∀ (ms : List MatchRec) (limit : Nat),
      (matchAllOf ms limit = none ↔ limit < ms.length) ∧
      (ms.length ≤ limit → matchAllOf ms limit = some ms)) := by
  constructor
  · intro q d test limit
    constructor
    · have h := matchAllAux_none limit
        ((stringMatchList q d test).map (fun f => (⟨f, f + q.unquoted.length⟩ : MatchRec)))
        0 (Nat.zero_le _)
      simpa [stringMatchAll, matchAllOf] using h
    · intro hle
      have h := matchAllAux_some limit
        ((stringMatchList q d test).map (fun f => (⟨f, f + q.unquoted.length⟩ : MatchRec)))
        0 (by simpa using hle)
      simpa [stringMatchAll, matchAllOf] using h
  · intro ms limit
    constructor
    · have h := matchAllAux_none limit ms 0 (Nat.zero_le _)
      simpa [matchAllOf] using h
    · intro hle
      have h := matchAllAux_some limit ms 0 (by simpa using hle)
      simpa [matchAllOf] using h

/-- Claim C7 witness: a document with two matches and limit 5 returns the
complete list. -/
theorem matchAll_limit_behavior_witness :
    (stringMatchList qA dABA anyTest).length ≤ 5 ∧
    stringMatchAll qA dABA anyTest 5 =
      some ((stringMatchList qA dABA anyTest).map
        (fun f => ⟨f, f + qA.unquoted.length⟩)) :=
  ⟨by decide, ((matchAll_limit_behavior.1 qA dABA anyTest 5).2) (by decide)⟩

/-- Claim C9 counterexample: the query operations do not check validity.
`StringQuery.nextMatch` (src/search.ts lines 203-207) constructs a cursor
unconditionally — here, for a concrete invalid query (empty search string),
at least one cursor is constructed, contradicting "returns no match /
empty results without constructing or invoking any cursor". -/
theorem invalid_query_still_builds_cursor :
    SearchQuery.valid qInvalid = false ∧
    1 ≤ stringNextMatchCursorCount qInvalid dEx anyTest 0 0 :=
  ⟨by decide, by decide⟩

/-- Claim C9 (amended): validity gating happens at the call sites, not in
the four operations.  `searchCommand` (src/search.ts lines 390-395) refuses
to invoke the wrapped operation when the current query is invalid (its
result is independent of the operation and is the open-panel result
`true`), and the highlighter (lines 372-384) produces no decorations for an
invalid query; the operations themselves construct cursors unconditionally
(at least one cursor per `nextMatch` call, whatever the query and boundary
test). -/
theorem validity_gated_at_call_sites :
    (∀ (f g : SearchQuery → Bool) (q : SearchQuery), q.valid = false →
      searchCommand f (some q) = searchCommand g (some q)) ∧
    (∀ (f : SearchQuery → Bool) (q : SearchQuery), q.valid = false →
      searchCommand f (some q) = true) ∧
    (∀ (p : Bool) (q : SearchQuery) (d : TextDoc) (test : Nat → Nat → Bool)
      (a b : Nat), q.valid = false →
      highlightDecorations p q d test a b = []) ∧
    (∀ (q : SearchQuery) (d : TextDoc) (test : Nat → Nat → Bool) (cf ct : Nat),
      1 ≤ stringNextMatchCursorCount q d test cf ct) := by
  refine ⟨?_, ?_, ?_, ?_⟩
  · intro f g q h
    simp [searchCommand, h]
  · intro f q h
    simp [searchCommand, h]
  · intro p q d test a b h
    simp [highlightDecorations, h]
  · intro q d test cf ct
    unfold stringNextMatchCursorCount
    cases stringCursorFirst q d test ct d.length <;> simp

/-- Claim C9 witness: the gate applied to the concrete invalid query. -/
theorem validity_gated_at_call_sites_witness :
    SearchQuery.valid qInvalid = false ∧
    searchCommand (fun _ => false) (some qInvalid) =
      searchCommand (fun _ => true) (some qInvalid) :=
  ⟨by decide, validity_gated_at_call_sites.1 (fun _ => false) (fun _ => true) qInvalid
    (by decide)⟩

/-- Candidate-window arithmetic: the candidates counted by `candCount` are
exactly the offsets whose match fits in `[lo, hi)`. -/
theorem cand_mem_iff (lo hi len f : Nat) :
    (lo ≤ f ∧ f < lo + candCount lo hi len) ↔ (lo ≤ f ∧ f + len ≤ hi) := by
  unfold candCount
  omega

/-- A first-accepted result is accepted, lies in the window, and nothing
before it is accepted. -/
theorem firstAccepted_some (acc : Nat → Bool) :
    ∀ (count lo f : Nat), firstAccepted acc lo count = some f →
      lo ≤ f ∧ f < lo + count ∧ acc f = true ∧
      ∀ g, lo ≤ g → g < f → acc g = false := by
  intro count
  induction count with
  | zero =>
    intro lo f h
    simp [firstAccepted] at h
  | succ c ih =>
    intro lo f h
    have heq : firstAccepted acc lo (c + 1)
        = if acc lo then some lo else firstAccepted acc (lo + 1) c := rfl
    rw [heq] at h
    by_cases ha : acc lo = true
    · rw [if_pos ha] at h
      injection h with hf
      subst hf
      exact ⟨Nat.le_refl _, by omega, ha, fun g hg1 hg2 => absurd hg2 (by omega)⟩
    · rw [if_neg ha] at h
      obtain ⟨h1, h2, h3, h4⟩ := ih (lo + 1) f h
      refine ⟨by omega, by omega, h3, ?_⟩
      intro g hg1 hg2
      by_cases hgl : g = lo
      · subst hgl
        simpa using ha
      · exact h4 g (by omega) hg2

/-- A drained-out first-accepted scan rejected every candidate in the
window. -/
theorem firstAccepted_none (acc : Nat → Bool) :
    ∀ (count lo : Nat), firstAccepted acc lo count = none →
      ∀ g, lo ≤ g → g < lo + count → acc g = false := by
  intro count
  induction count with
  | zero =>
    intro lo _ g hg1 hg2
    omega
  | succ c ih =>
    intro lo h g hg1 hg2
    have heq : firstAccepted acc lo (c + 1)
        = if acc lo then some lo else firstAccepted acc (lo + 1) c := rfl
    rw [heq] at h
    by_cases ha : acc lo = true
    · rw [if_pos ha] at h
      cases h
    · rw [if_neg ha] at h
      by_cases hgl : g = lo
      · subst hgl
        simpa using ha
      · exact ih (lo + 1) h g (by omega) (by omega)

/-- A greatest-accepted result is accepted, lies in the window, and nothing
after it in the window is accepted. -/
theorem greatestAcc_some (acc : Nat → Bool) (lo : Nat) :
    ∀ (count f : Nat), greatestAcc acc lo count = some f →
      lo ≤ f ∧ f < lo + count ∧ acc f = true ∧
      ∀ g, f < g → g < lo + count → acc g = false := by
  intro count
  induction count with
  | zero =>
    intro f h
    simp [greatestAcc] at h
  | succ c ih =>
    intro f h
    have heq : greatestAcc acc lo (c + 1)
        = if acc (lo + c) then some (lo + c) else greatestAcc acc lo c := rfl
    rw [heq] at h
    by_cases ha : acc (lo + c) = true
    · rw [if_pos ha] at h
      injection h with hf
      subst hf
      exact ⟨by omega, by omega, ha, fun g hg1 hg2 => absurd hg2 (by omega)⟩
    · rw [if_neg ha] at h
      obtain ⟨h1, h2, h3, h4⟩ := ih f h
      refine ⟨h1, by omega, h3, ?_⟩
      intro g hg1 hg2
      by_cases hgc : g = lo + c
      · subst hgc
        simpa using ha
      · exact h4 g hg1 (by omega)

/-- A drained-out greatest-accepted scan rejected every candidate in the
window. -/
theorem greatestAcc_none (acc : Nat → Bool) (lo : Nat) :
    ∀ (count : Nat), greatestAcc acc lo count = none →
      ∀ g, lo ≤ g → g < lo + count → acc g = false := by
  intro count
  induction count with
  | zero =>
    intro _ g hg1 hg2
    omega
  | succ c ih =>
    intro h g hg1 hg2
    have heq : greatestAcc acc lo (c + 1)
        = if acc (lo + c) then some (lo + c) else greatestAcc acc lo c := rfl
    rw [heq] at h
    by_cases ha : acc (lo + c) = true
    · rw [if_pos ha] at h
      cases h
    · rw [if_neg ha] at h
      by_cases hgc : g = lo + c
      · subst hgc
        simpa using ha
      · exact ih h g hg1 (by omega)

/-- Shifting the greatest-accepted window by one from the left. -/
theorem greatestAcc_shift (acc : Nat → Bool) :
    ∀ (c lo : Nat), greatestAcc acc lo (c + 1) =
      orFallback (greatestAcc acc (lo + 1) c) (if acc lo then some lo else none) := by
  intro c
  induction c with
  | zero =>
    intro lo
    rfl
  | succ c ih =>
    intro lo
    have heqL : greatestAcc acc lo (c + 1 + 1)
        = if acc (lo + (c + 1)) then some (lo + (c + 1)) else greatestAcc acc lo (c + 1) := rfl
    have heqR : greatestAcc acc (lo + 1) (c + 1)
        = if acc (lo + 1 + c) then some (lo + 1 + c) else greatestAcc acc (lo + 1) c := rfl
    have he : lo + 1 + c = lo + (c + 1) := by omega
    rw [heqL, heqR, he]
    by_cases ha : acc (lo + (c + 1)) = true
    · rw [if_pos ha, if_pos ha]
      rfl
    · rw [if_neg ha, if_neg ha]
      exact ih lo

/-- The forward drain that keeps the last match equals the greatest
accepted candidate, with the running best as fallback. -/
theorem drainLastAux_eq (acc : Nat → Bool) :
    ∀ (count lo : Nat) (best : Option Nat),
      drainLastAux acc lo count best = orFallback (greatestAcc acc lo count) best := by
  intro count
  induction count with
  | zero =>
    intro lo best
    rfl
  | succ c ih =>
    intro lo best
    have heq : drainLastAux acc lo (c + 1) best
        = drainLastAux acc (lo + 1) c (if acc lo then some lo else best) := rfl
    rw [heq, ih (lo + 1) (if acc lo then some lo else best), greatestAcc_shift]
    rcases greatestAcc acc (lo + 1) c with _ | f
    · by_cases ha : acc lo = true
      · rw [if_pos ha, if_pos ha]
        rfl
      · rw [if_neg ha, if_neg ha]
        rfl
    · rfl

/-- The first match of a literal cursor over `[lo, hi)` is the least
accepted offset fully inside the range, and a drained cursor means the
range has no accepted offset. -/
theorem stringCursorFirst_spec (q : SearchQuery) (d : TextDoc)
    (test : Nat → Nat → Bool) (lo hi : Nat) :
    (∀ f, stringCursorFirst q d test lo hi = some f →
      accIn q d test lo hi f ∧ ∀ g, accIn q d test lo hi g → f ≤ g) ∧
    (stringCursorFirst q d test lo hi = none → ∀ g, ¬ accIn q d test lo hi g) := by
  constructor
  · intro f h
    obtain ⟨h1, h2, h3, h4⟩ := firstAccepted_some (stringAccept q d test) _ _ _ h
    have hf := (cand_mem_iff lo hi q.unquoted.length f).mp ⟨h1, h2⟩
    refine ⟨⟨hf.1, hf.2, h3⟩, ?_⟩
    intro g hg
    by_contra hlt
    push_neg at hlt
    have hacc := hg.2.2
    have := h4 g hg.1 hlt
    rw [this] at hacc
    cases hacc
  · intro h g hg
    have hgc := (cand_mem_iff lo hi q.unquoted.length g).mpr ⟨hg.1, hg.2.1⟩
    have hacc := hg.2.2
    have := firstAccepted_none (stringAccept q d test) _ _ h g hg.1 hgc.2
    rw [this] at hacc
    cases hacc

/-- Reduction of the fallback combinator on a present first argument. -/
theorem orFallback_some (f : Nat) (b : Option Nat) : orFallback (some f) b = some f := rfl

/-- Reduction of the fallback combinator on an absent first argument. -/
theorem orFallback_none (b : Option Nat) : orFallback none b = b := rfl

/-- Correctness of the backward chunk loop: with sufficient fuel,
`prevMatchAux` returns the greatest accepted offset whose match fits in
`[lo, pos)`, and returns nothing exactly when there is no such offset. -/
theorem prevMatchAux_spec (acc : Nat → Bool) (lo len : Nat) (hlen : 1 ≤ len) :
    ∀ (fuel pos : Nat), pos ≤ fuel * chunkSize →
      (∀ f, prevMatchAux acc lo len pos fuel = some f →
        (lo ≤ f ∧ f + len ≤ pos ∧ acc f = true) ∧
        ∀ g, lo ≤ g → g + len ≤ pos → acc g = true → g ≤ f) ∧
      (prevMatchAux acc lo len pos fuel = none →
        ∀ g, lo ≤ g → g + len ≤ pos → acc g = false) := by
  intro fuel
  induction fuel with
  | zero =>
    intro pos hpos
    have hp0 : pos = 0 := by simpa using hpos
    subst hp0
    constructor
    · intro f h
      simp [prevMatchAux] at h
    · intro _ g hg1 hg2
      exact absurd hg2 (by omega)
  | succ fl ih =>
    intro pos hpos
    set S := max lo (pos - (chunkSize + len)) with hS
    have hloS : lo ≤ S := Nat.le_max_left _ _
    have hdr := drainLastAux_eq acc (candCount S pos len) S (none : Option Nat)
    rcases hg : greatestAcc acc S (candCount S pos len) with _ | r
    · have hreject : ∀ g, S ≤ g → g + len ≤ pos → acc g = false := by
        intro g hg1 hg2
        exact greatestAcc_none acc S _ hg g hg1
          ((cand_mem_iff S pos len g).mpr ⟨hg1, hg2⟩).2
      have hbranch : prevMatchAux acc lo len pos (fl + 1)
          = (if S = lo then none else prevMatchAux acc lo len (pos - chunkSize) fl) := by
        show (match drainLastAux acc S (candCount S pos len) none with
              | some r => some r
              | none => if S = lo then none
                        else prevMatchAux acc lo len (pos - chunkSize) fl) = _
        rw [hdr, hg]
        rfl
      by_cases hSlo : S = lo
      · rw [if_pos hSlo] at hbranch
        constructor
        · intro f h
          rw [hbranch] at h
          cases h
        · intro _ g hg1 hg2
          exact hreject g (by omega) hg2
      · rw [if_neg hSlo] at hbranch
        have hSval : S = pos - (chunkSize + len) ∧ lo < pos - (chunkSize + len) := by
          rw [hS] at hSlo ⊢
          constructor <;> omega
        have hfuel : pos - chunkSize ≤ fl * chunkSize := by
          have hp := hpos
          simp [chunkSize] at hp ⊢
          omega
        obtain ⟨ihs, ihn⟩ := ih (pos - chunkSize) hfuel
        have hequiv : ∀ g, lo ≤ g → acc g = true → g + len ≤ pos →
            g + len ≤ pos - chunkSize := by
          intro g hg1 hg2 hg3
          have hglt : g < S := by
            by_contra hge
            push_neg at hge
            have := hreject g hge hg3
            rw [this] at hg2
            cases hg2
          omega
        constructor
        · intro f h
          rw [hbranch] at h
          obtain ⟨⟨hf1, hf2, hf3⟩, hmax⟩ := ihs f h
          refine ⟨⟨hf1, by omega, hf3⟩, ?_⟩
          intro g hg1 hg2 hg3
          exact hmax g hg1 (hequiv g hg1 hg3 hg2) hg3
        · intro h g hg1 hg2
          rw [hbranch] at h
          by_cases hacc : acc g = true
          · exact ihn h g hg1 (hequiv g hg1 hacc hg2)
          · simpa using hacc
    · obtain ⟨hr1, hr2, hr3, hrgt⟩ := greatestAcc_some acc S _ r hg
      have hrmem := (cand_mem_iff S pos len r).mp ⟨hr1, hr2⟩
      have hbranch : prevMatchAux acc lo len pos (fl + 1) = some r := by
        show (match drainLastAux acc S (candCount S pos len) none with
              | some r => some r
              | none => if S = lo then none
                        else prevMatchAux acc lo len (pos - chunkSize) fl) = some r
        rw [hdr, hg]
        rfl
      constructor
      · intro f h
        rw [hbranch] at h
        injection h with hf
        subst hf
        refine ⟨⟨by omega, hrmem.2, hr3⟩, ?_⟩
        intro g hg1 hg2 hg3
        by_cases hgS : S ≤ g
        · by_contra hgt
          push_neg at hgt
          have := hrgt g hgt ((cand_mem_iff S pos len g).mpr ⟨hgS, hg2⟩).2
          rw [this] at hg3
          cases hg3
        · omega
      · intro h
        rw [hbranch] at h
        cases h

/-- `StringQuery.prevMatchInRange` returns the accepted match with the
greatest start offset fully inside `[lo, hi)`, or nothing when the range
has no accepted match. -/
theorem stringPrevMatchInRange_spec (q : SearchQuery) (d : TextDoc)
    (test : Nat → Nat → Bool) (lo hi : Nat) (hlen : 1 ≤ q.unquoted.length) :
    (∀ m, stringPrevMatchInRange q d test lo hi = some m →
      accIn q d test lo hi m.mFrom ∧
      m.mTo = m.mFrom + q.unquoted.length ∧
      ∀ g, accIn q d test lo hi g → g ≤ m.mFrom) ∧
    (stringPrevMatchInRange q d test lo hi = none →
      ∀ g, ¬ accIn q d test lo hi g) := by
  have hfuel : hi ≤ (hi + 2) * chunkSize := by
    simp only [chunkSize]
    omega
  obtain ⟨hs, hn⟩ := prevMatchAux_spec (stringAccept q d test) lo
    q.unquoted.length hlen (hi + 2) hi hfuel
  rcases hr : prevMatchAux (stringAccept q d test) lo q.unquoted.length hi (hi + 2)
    with _ | f
  · have hmr : stringPrevMatchInRange q d test lo hi = none := by
      unfold stringPrevMatchInRange
      rw [hr]
      rfl
    constructor
    · intro m hm
      rw [hmr] at hm
      cases hm
    · intro _ g hg
      have hacc := hg.2.2
      have := hn hr g hg.1 hg.2.1
      rw [this] at hacc
      cases hacc
  · obtain ⟨⟨hf1, hf2, hf3⟩, hmax⟩ := hs f hr
    have hmr : stringPrevMatchInRange q d test lo hi
        = some ⟨f, f + q.unquoted.length⟩ := by
      unfold stringPrevMatchInRange
      rw [hr]
      rfl
    constructor
    · intro m hm
      rw [hmr] at hm
      injection hm with hm
      subst hm
      refine ⟨⟨hf1, hf2, hf3⟩, rfl, ?_⟩
      intro g hg
      exact hmax g hg.1 hg.2.1 hg.2.2
    · intro hm
      rw [hmr] at hm
      cases hm

/-- Claim C4: `prevMatch(state, curFrom, curTo)` first searches
`[0, curFrom)` and, when that region contains at least one match, returns
the match with the largest start offset in it (what a full backward linear
scan would find); only when `[0, curFrom)` has no match does it search
`[curTo, doc.length)` and return the last match there, or nothing.  A
match is an offset the literal cursor accepts: normalized slice equality
plus, for a whole-word query, the boundary test `stringCursor` wires in
(src/search.ts line 182), an abstract parameter since the character
categorizer is external.  Proved exactly for the literal query (its cursor
modelled from the spec); for the regexp query, whose cursor is external,
the same region-priority is proved: a match found in `[0, curFrom)` is
returned without consulting the wrap region. -/
theorem prevMatch_backward_search :
    (∀ (q : SearchQuery) (d : TextDoc) (test : Nat → Nat → Bool)
      (curFrom curTo : Nat), 1 ≤ q.unquoted.length →
      (∀ m, stringPrevMatch q d test curFrom curTo = some m →
        (accIn q d test 0 curFrom m.mFrom ∧
          ∀ g, accIn q d test 0 curFrom g → g ≤ m.mFrom) ∨
        ((∀ g, ¬ accIn q d test 0 curFrom g) ∧
          accIn q d test curTo d.length m.mFrom ∧
          ∀ g, accIn q d test curTo d.length g → g ≤ m.mFrom)) ∧
      (∀ g0, accIn q d test 0 curFrom g0 →
        ∃ m, stringPrevMatch q d test curFrom curTo = some m ∧
          accIn q d test 0 curFrom m.mFrom ∧
          ∀ g, accIn q d test 0 curFrom g → g ≤ m.mFrom) ∧
      (stringPrevMatch q d test curFrom curTo = none →
        (∀ g, ¬ accIn q d test 0 curFrom g) ∧
        (∀ g, ¬ accIn q d test curTo d.length g))) ∧
    (∀ (last : Nat → Nat → Option MatchRec) (docLen curFrom curTo : Nat) (r : MatchRec),
      rPrevMatchInRange last 0 curFrom = some r →
      rPrevMatch last docLen curFrom curTo = some r) := by
  constructor
  · intro q d test curFrom curTo hlen
    obtain ⟨hAs, hAn⟩ := stringPrevMatchInRange_spec q d test 0 curFrom hlen
    obtain ⟨hBs, hBn⟩ := stringPrevMatchInRange_spec q d test curTo d.length hlen
    refine ⟨?_, ?_, ?_⟩
    · intro m hm
      rcases hr : stringPrevMatchInRange q d test 0 curFrom with _ | m0
      · right
        have hmB : stringPrevMatch q d test curFrom curTo
            = stringPrevMatchInRange q d test curTo d.length := by
          unfold stringPrevMatch
          rw [hr]
        rw [hmB] at hm
        obtain ⟨h1, h2, h3⟩ := hBs m hm
        exact ⟨hAn hr, h1, h3⟩
      · left
        have hmA : stringPrevMatch q d test curFrom curTo = some m0 := by
          unfold stringPrevMatch
          rw [hr]
        rw [hmA] at hm
        injection hm with hm
        subst hm
        obtain ⟨h1, h2, h3⟩ := hAs m0 hr
        exact ⟨h1, h3⟩
    · intro g0 hg0
      rcases hr : stringPrevMatchInRange q d test 0 curFrom with _ | m0
      · exact absurd hg0 (hAn hr g0)
      · obtain ⟨h1, h2, h3⟩ := hAs m0 hr
        refine ⟨m0, ?_, h1, h3⟩
        unfold stringPrevMatch
        rw [hr]
    · intro hm
      rcases hr : stringPrevMatchInRange q d test 0 curFrom with _ | m0
      · have hmB : stringPrevMatch q d test curFrom curTo
            = stringPrevMatchInRange q d test curTo d.length := by
          unfold stringPrevMatch
          rw [hr]
        rw [hmB] at hm
        exact ⟨hAn hr, hBn hm⟩
      · have hmA : stringPrevMatch q d test curFrom curTo = some m0 := by
          unfold stringPrevMatch
          rw [hr]
        rw [hmA] at hm
        cases hm
  · intro last docLen curFrom curTo r h
    unfold rPrevMatch
    rw [h]

/-- Claim C4 witness: in `aba` with pattern `a`, the region `[0, 3)` has
accepted matches at 0 and 2, and `prevMatch` returns the one at 2. -/
theorem prevMatch_backward_search_witness :
    1 ≤ qA.unquoted.length ∧ accIn qA dABA anyTest 0 3 0 ∧
    (∃ m, stringPrevMatch qA dABA anyTest 3 3 = some m ∧
      accIn qA dABA anyTest 0 3 m.mFrom ∧
      ∀ g, accIn qA dABA anyTest 0 3 g → g ≤ m.mFrom) :=
  ⟨by decide, by decide,
    ((prevMatch_backward_search.1 qA dABA anyTest 3 3 (by decide)).2.1) 0 (by decide)⟩

/-- Claim C3: `nextMatch(state, curFrom, curTo)` returns the first match in
`[curTo, doc.length)`; if that region has no match it returns the first
match in `[0, curFrom)` (wrap-around); if neither region has a match it
returns nothing — in particular, when the document's only match lies before
`curFrom`, the earlier match is returned rather than nothing.  A match is
an offset the literal cursor accepts: normalized slice equality plus, for a
whole-word query, the boundary test `stringCursor` wires in (src/search.ts
line 182), an abstract parameter since the character categorizer is
external.  Proved exactly for the literal query (its cursor modelled from
the spec); for the regexp query, whose cursor is external, the same
region-priority is proved: the scan of `[curTo, docLen)` is consulted first
and `[0, curFrom)` only on failure. -/
theorem nextMatch_scans_then_wraps :
    (∀ (q : SearchQuery) (d : TextDoc) (test : Nat → Nat → Bool)
      (curFrom curTo : Nat),
      (∀ m, stringNextMatch q d test curFrom curTo = some m →
        m.mTo = m.mFrom + q.unquoted.length ∧
        ((accIn q d test curTo d.length m.mFrom ∧
           ∀ g, accIn q d test curTo d.length g → m.mFrom ≤ g) ∨
         ((∀ g, ¬ accIn q d test curTo d.length g) ∧
           accIn q d test 0 curFrom m.mFrom ∧
           ∀ g, accIn q d test 0 curFrom g → m.mFrom ≤ g))) ∧
      (∀ g0, accIn q d test curTo d.length g0 →
        ∃ m, stringNextMatch q d test curFrom curTo = some m ∧
          accIn q d test curTo d.length m.mFrom ∧
          ∀ g, accIn q d test curTo d.length g → m.mFrom ≤ g) ∧
      (∀ g0, (∀ g, ¬ accIn q d test curTo d.length g) →
        accIn q d test 0 curFrom g0 →
        ∃ m, stringNextMatch q d test curFrom curTo = some m ∧
          accIn q d test 0 curFrom m.mFrom ∧
          ∀ g, accIn q d test 0 curFrom g → m.mFrom ≤ g) ∧
      (stringNextMatch q d test curFrom curTo = none →
        (∀ g, ¬ accIn q d test curTo d.length g) ∧
        (∀ g, ¬ accIn q d test 0 curFrom g))) ∧
    (∀ (first : Nat → Nat → Option MatchRec) (docLen curFrom curTo : Nat),
      (∀ r, first curTo docLen = some r →
        rNextMatch first docLen curFrom curTo = some r) ∧
      (first curTo docLen = none →
        rNextMatch first docLen curFrom curTo = first 0 curFrom)) := by
  constructor
  · intro q d test curFrom curTo
    obtain ⟨hAs, hAn⟩ := stringCursorFirst_spec q d test curTo d.length
    obtain ⟨hBs, hBn⟩ := stringCursorFirst_spec q d test 0 curFrom
    rcases h1 : stringCursorFirst q d test curTo d.length with _ | f1
    · have hstep : stringNextMatch q d test curFrom curTo
          = Option.map (fun f => (⟨f, f + q.unquoted.length⟩ : MatchRec))
              (stringCursorFirst q d test 0 curFrom) := by
        unfold stringNextMatch
        rw [h1]
      refine ⟨?_, ?_, ?_, ?_⟩
      · intro m hm
        rw [hstep] at hm
        rcases h2 : stringCursorFirst q d test 0 curFrom with _ | f2
        · rw [h2] at hm
          cases hm
        · rw [h2] at hm
          injection hm with hm
          subst hm
          obtain ⟨hocc, hleast⟩ := hBs f2 h2
          exact ⟨rfl, Or.inr ⟨hAn h1, hocc, hleast⟩⟩
      · intro g0 hg0
        exact absurd hg0 (hAn h1 g0)
      · intro g0 _ hg0
        rcases h2 : stringCursorFirst q d test 0 curFrom with _ | f2
        · exact absurd hg0 (hBn h2 g0)
        · obtain ⟨hocc, hleast⟩ := hBs f2 h2
          refine ⟨⟨f2, f2 + q.unquoted.length⟩, ?_, hocc, hleast⟩
          rw [hstep, h2]
          rfl
      · intro hm
        rw [hstep] at hm
        rcases h2 : stringCursorFirst q d test 0 curFrom with _ | f2
        · exact ⟨hAn h1, hBn h2⟩
        · rw [h2] at hm
          cases hm
    · have hstep : stringNextMatch q d test curFrom curTo
          = some ⟨f1, f1 + q.unquoted.length⟩ := by
        unfold stringNextMatch
        rw [h1]
      obtain ⟨hocc, hleast⟩ := hAs f1 h1
      refine ⟨?_, ?_, ?_, ?_⟩
      · intro m hm
        rw [hstep] at hm
        injection hm with hm
        subst hm
        exact ⟨rfl, Or.inl ⟨hocc, hleast⟩⟩
      · intro g0 hg0
        exact ⟨⟨f1, f1 + q.unquoted.length⟩, hstep, hocc, hleast⟩
      · intro g0 hnone _
        exact absurd hocc (hnone f1)
      · intro hm
        rw [hstep] at hm
        cases hm
  · intro first docLen curFrom curTo
    constructor
    · intro r h
      unfold rNextMatch
      rw [h]
    · intro h
      unfold rNextMatch
      rw [h]

/-- Claim C3 witness: in `aba` with pattern `a`, `curFrom = curTo = 3`
leaves `[3, 3)` without a match, and `nextMatch` wraps to the match at 0. -/
theorem nextMatch_scans_then_wraps_witness :
    (∀ g, ¬ accIn qA dABA anyTest 3 dABA.length g) ∧
    accIn qA dABA anyTest 0 3 0 ∧
    (∃ m, stringNextMatch qA dABA anyTest 3 3 = some m ∧
      accIn qA dABA anyTest 0 3 m.mFrom ∧
      ∀ g, accIn qA dABA anyTest 0 3 g → m.mFrom ≤ g) := by
  have hnone : ∀ g, ¬ accIn qA dABA anyTest 3 dABA.length g := by
    intro g hg
    have h1 := hg.1
    have h2 := hg.2.1
    have hl : qA.unquoted.length = 1 := by decide
    have hd : dABA.length = 3 := by decide
    omega
  exact ⟨hnone, by decide,
    ((nextMatch_scans_then_wraps.1 qA dABA anyTest 3 3).2.2.1) 0 hnone (by decide)⟩

/-- Every offset produced by the non-overlapping drain starts at or after
the scan position, fits in the range, and is accepted. -/
theorem nonOverlapScan_mem (acc : Nat → Bool) (len hi : Nat) :
    ∀ (fuel lo f : Nat), f ∈ nonOverlapScan acc len hi lo fuel →
      lo ≤ f ∧ f + len ≤ hi ∧ acc f = true := by
  intro fuel
  induction fuel with
  | zero =>
    intro lo f h
    simp [nonOverlapScan] at h
  | succ fl ih =>
    intro lo f h
    have heq : nonOverlapScan acc len hi lo (fl + 1)
        = if lo + len ≤ hi then
            if acc lo then lo :: nonOverlapScan acc len hi (lo + len) fl
            else nonOverlapScan acc len hi (lo + 1) fl
          else [] := rfl
    rw [heq] at h
    by_cases hc : lo + len ≤ hi
    · rw [if_pos hc] at h
      by_cases ha : acc lo = true
      · rw [if_pos ha] at h
        rcases List.mem_cons.mp h with hf | hf
        · subst hf
          exact ⟨Nat.le_refl _, hc, ha⟩
        · obtain ⟨h1, h2, h3⟩ := ih (lo + len) f hf
          exact ⟨by omega, h2, h3⟩
      · rw [if_neg ha] at h
        obtain ⟨h1, h2, h3⟩ := ih (lo + 1) f h
        exact ⟨by omega, h2, h3⟩
    · rw [if_neg hc] at h
      cases h

/-- Consecutive offsets produced by the non-overlapping drain are at least
a pattern length apart. -/
theorem nonOverlapScan_chain (acc : Nat → Bool) (len hi : Nat) :
    ∀ (fuel lo : Nat),
      List.Chain' (fun a b => a + len ≤ b) (nonOverlapScan acc len hi lo fuel) := by
  intro fuel
  induction fuel with
  | zero =>
    intro lo
    simp [nonOverlapScan]
  | succ fl ih =>
    intro lo
    have heq : nonOverlapScan acc len hi lo (fl + 1)
        = if lo + len ≤ hi then
            if acc lo then lo :: nonOverlapScan acc len hi (lo + len) fl
            else nonOverlapScan acc len hi (lo + 1) fl
          else [] := rfl
    rw [heq]
    by_cases hc : lo + len ≤ hi
    · rw [if_pos hc]
      by_cases ha : acc lo = true
      · rw [if_pos ha]
        rw [List.chain'_cons']
        refine ⟨?_, ih (lo + len)⟩
        intro b hb
        have hbm := List.mem_of_mem_head? hb
        exact (nonOverlapScan_mem acc len hi fl (lo + len) b hbm).1
      · rw [if_neg ha]
        exact ih (lo + 1)
    · rw [if_neg hc]
      simp

/-- Every accepted offset in the range overlaps some offset produced by the
non-overlapping drain (nothing is silently dropped; a greedy earlier match
may cover it). -/
theorem nonOverlapScan_cover (acc : Nat → Bool) (len hi : Nat) (hlen : 1 ≤ len) :
    ∀ (fuel lo : Nat), hi + 1 - lo ≤ fuel →
      ∀ g, lo ≤ g → g + len ≤ hi → acc g = true →
        ∃ f ∈ nonOverlapScan acc len hi lo fuel, f ≤ g ∧ g < f + len := by
  intro fuel
  induction fuel with
  | zero =>
    intro lo hfu g hg1 hg2 hg3
    exact absurd hg2 (by omega)
  | succ fl ih =>
    intro lo hfu g hg1 hg2 hg3
    have heq : nonOverlapScan acc len hi lo (fl + 1)
        = if lo + len ≤ hi then
            if acc lo then lo :: nonOverlapScan acc len hi (lo + len) fl
            else nonOverlapScan acc len hi (lo + 1) fl
          else [] := rfl
    rw [heq]
    have hc : lo + len ≤ hi := by omega
    rw [if_pos hc]
    by_cases ha : acc lo = true
    · rw [if_pos ha]
      by_cases hgl : g < lo + len
      · exact ⟨lo, List.mem_cons_self _ _, hg1, hgl⟩
      · push_neg at hgl
        obtain ⟨f, hf, h1, h2⟩ := ih (lo + len) (by omega) g hgl hg2 hg3
        exact ⟨f, List.mem_cons_of_mem _ hf, h1, h2⟩
    · rw [if_neg ha]
      have hgne : lo < g := by
        rcases Nat.lt_or_ge lo g with h | h
        · exact h
        · have : g = lo := by omega
          subst this
          exact absurd hg3 ha
      exact ih (lo + 1) (by omega) g (by omega) hg2 hg3

/-- Splitting an accepted-candidate count at an intermediate window point. -/
theorem occCount_split (acc : Nat → Bool) :
    ∀ (a b lo : Nat), occCount acc lo (a + b) = occCount acc lo a + occCount acc (lo + a) b := by
  intro a
  induction a with
  | zero =>
    intro b lo
    simp [occCount]
  | succ a ih =>
    intro b lo
    have h1 : a + 1 + b = (a + b) + 1 := by omega
    rw [h1]
    have h2 : occCount acc lo ((a + b) + 1)
        = (if acc lo then 1 else 0) + occCount acc (lo + 1) (a + b) := rfl
    have h3 : occCount acc lo (a + 1)
        = (if acc lo then 1 else 0) + occCount acc (lo + 1) a := rfl
    rw [h2, h3, ih b (lo + 1)]
    have h4 : lo + 1 + a = lo + (a + 1) := by omega
    rw [h4]
    exact (Nat.add_assoc _ _ _).symm

/-- Dropping a prefix of the window cannot increase the accepted count. -/
theorem occCount_drop (acc : Nat → Bool) :
    ∀ (a lo c : Nat), occCount acc (lo + a) (c - a) ≤ occCount acc lo c := by
  intro a
  induction a with
  | zero =>
    intro lo c
    simp
  | succ a ih =>
    intro lo c
    rcases c with _ | c0
    · simp [occCount]
    · have h1 : lo + (a + 1) = (lo + 1) + a := by omega
      have h2 : c0 + 1 - (a + 1) = c0 - a := by omega
      rw [h1, h2]
      have h3 := ih (lo + 1) c0
      have h4 : occCount acc lo (c0 + 1)
          = (if acc lo then 1 else 0) + occCount acc (lo + 1) c0 := rfl
      rw [h4]
      omega

/-- The non-overlapping drain returns at most as many matches as there are
accepted candidates in the range. -/
theorem nonOverlapScan_len (acc : Nat → Bool) (len hi : Nat) (hlen : 1 ≤ len) :
    ∀ (fuel lo : Nat),
      (nonOverlapScan acc len hi lo fuel).length ≤ occCount acc lo (candCount lo hi len) := by
  intro fuel
  induction fuel with
  | zero =>
    intro lo
    simp [nonOverlapScan]
  | succ fl ih =>
    intro lo
    have heq : nonOverlapScan acc len hi lo (fl + 1)
        = if lo + len ≤ hi then
            if acc lo then lo :: nonOverlapScan acc len hi (lo + len) fl
            else nonOverlapScan acc len hi (lo + 1) fl
          else [] := rfl
    rw [heq]
    by_cases hc : lo + len ≤ hi
    · rw [if_pos hc]
      have hcpos : 1 ≤ candCount lo hi len := by
        unfold candCount
        omega
      have hsplit1 : occCount acc lo (candCount lo hi len)
          = occCount acc lo 1 + occCount acc (lo + 1) (candCount lo hi len - 1) := by
        have h := occCount_split acc 1 (candCount lo hi len - 1) lo
        rw [show 1 + (candCount lo hi len - 1) = candCount lo hi len from by omega] at h
        exact h
      by_cases ha : acc lo = true
      · rw [if_pos ha]
        simp only [List.length_cons]
        have h1 := ih (lo + len)
        have hc1 : candCount (lo + len) hi len = (candCount lo hi len - 1) - (len - 1) := by
          unfold candCount
          omega
        have hc2 : lo + len = (lo + 1) + (len - 1) := by omega
        have h2 : occCount acc (lo + len) (candCount (lo + len) hi len)
            ≤ occCount acc (lo + 1) (candCount lo hi len - 1) := by
          rw [hc1, hc2]
          exact occCount_drop acc (len - 1) (lo + 1) (candCount lo hi len - 1)
        have hlo1 : occCount acc lo 1 = 1 := by
          simp [occCount, ha]
        omega
      · rw [if_neg ha]
        have h1 := ih (lo + 1)
        have hc2 : candCount (lo + 1) hi len = candCount lo hi len - 1 := by
          unfold candCount
          omega
        have hlo0 : occCount acc lo 1 = 0 := by
          simp [occCount, ha]
        rw [hc2] at h1
        omega
    · rw [if_neg hc]
      simp

/-- Claim C2 counterexample: in document `aaa` with the case-sensitive
literal pattern `aa` (whole-word off, so the boundary test is never
consulted) and a generous limit, `matchAll` returns only the match at
offset 0, although offset 1 also starts an occurrence (the slice `[1, 3)`
equals the pattern) — the result is not "exactly the set of starting
offsets where the slice equals the pattern", because the non-overlapping
`next()` advance skips overlapping occurrences. -/
theorem matchAll_not_all_occurrences :
    stringMatchAll qAA dAAA anyTest 10 = some [⟨0, 2⟩] ∧
    occIn dAAA qAA.unquoted (qNorm qAA) 0 dAAA.length 1 := by
  constructor <;> decide

/-- Without whole-word matching the cursor accepts exactly the
slice-equality occurrences, whatever the boundary test. -/
theorem accIn_iff_occIn (q : SearchQuery) (d : TextDoc) (test : Nat → Nat → Bool)
    (lo hi f : Nat) (h : q.wholeWord = false) :
    accIn q d test lo hi f ↔ occIn d q.unquoted (qNorm q) lo hi f := by
  unfold accIn occIn stringAccept
  rw [h]
  simp

/-- Claim C2 (amended): for a non-empty literal pattern and a limit at
least the number of accepted occurrences, `matchAll` returns the greedy
non-overlapping subsequence of the accepted occurrence offsets, in
ascending order with no duplicates (consecutive matches at least a pattern
length apart), where every returned offset starts an accepted occurrence
and every accepted occurrence overlaps some returned match (so occurrences
are only omitted when an earlier, overlapping match covers them).  An
accepted occurrence is a normalized slice-equality occurrence that also
passes the whole-word boundary test when the query enables whole-word
matching; when whole-word is off, accepted occurrences are exactly the
slice-equality occurrences (final conjunct). -/
theorem matchAll_greedy_exhaustive (q : SearchQuery) (d : TextDoc)
    (test : Nat → Nat → Bool) (limit : Nat)
    (hlen : 1 ≤ q.unquoted.length)
    (hcnt : occCount (stringAccept q d test) 0
      (candCount 0 d.length q.unquoted.length) ≤ limit) :
    ∃ l, stringMatchAll q d test limit = some l ∧
      (∀ m ∈ l, accIn q d test 0 d.length m.mFrom ∧
        m.mTo = m.mFrom + q.unquoted.length) ∧
      List.Chain' (fun a b => a.mFrom + q.unquoted.length ≤ b.mFrom) l ∧
      (∀ g, accIn q d test 0 d.length g →
        ∃ m ∈ l, m.mFrom ≤ g ∧ g < m.mFrom + q.unquoted.length) ∧
      (∀ g, q.wholeWord = false →
        (accIn q d test 0 d.length g ↔ occIn d q.unquoted (qNorm q) 0 d.length g)) := by
  have hlenle : (stringMatchList q d test).length
      ≤ occCount (stringAccept q d test) 0
          (candCount 0 d.length q.unquoted.length) := by
    unfold stringMatchList
    exact nonOverlapScan_len (stringAccept q d test) q.unquoted.length
      d.length hlen (d.length + 1) 0
  have hsome : stringMatchAll q d test limit
      = some ((stringMatchList q d test).map
          (fun f => (⟨f, f + q.unquoted.length⟩ : MatchRec))) := by
    unfold stringMatchAll matchAllOf
    exact matchAllAux_some limit _ 0 (by simp; omega)
  refine ⟨_, hsome, ?_, ?_, ?_, ?_⟩
  · intro m hm
    rw [List.mem_map] at hm
    obtain ⟨f, hf, rfl⟩ := hm
    have h := nonOverlapScan_mem (stringAccept q d test) q.unquoted.length
      d.length (d.length + 1) 0 f hf
    exact ⟨⟨h.1, h.2.1, h.2.2⟩, rfl⟩
  · rw [List.chain'_map]
    exact nonOverlapScan_chain (stringAccept q d test) q.unquoted.length
      d.length (d.length + 1) 0
  · intro g hg
    obtain ⟨f, hf, h1, h2⟩ := nonOverlapScan_cover (stringAccept q d test)
      q.unquoted.length d.length hlen (d.length + 1) 0 (by omega) g (Nat.zero_le _)
      hg.2.1 hg.2.2
    exact ⟨⟨f, f + q.unquoted.length⟩, List.mem_map_of_mem _ hf, h1, h2⟩
  · intro g hw
    exact accIn_iff_occIn q d test 0 d.length g hw

/-- Claim C2 witness: the amended statement applied to document `aba` with
pattern `a` and limit 5. -/
theorem matchAll_greedy_exhaustive_witness :
    1 ≤ qA.unquoted.length ∧
    occCount (stringAccept qA dABA anyTest) 0
      (candCount 0 dABA.length qA.unquoted.length) ≤ 5 ∧
    (∃ l, stringMatchAll qA dABA anyTest 5 = some l ∧
      (∀ m ∈ l, accIn qA dABA anyTest 0 dABA.length m.mFrom ∧
        m.mTo = m.mFrom + qA.unquoted.length) ∧
      List.Chain' (fun a b => a.mFrom + qA.unquoted.length ≤ b.mFrom) l ∧
      (∀ g, accIn qA dABA anyTest 0 dABA.length g →
        ∃ m ∈ l, m.mFrom ≤ g ∧ g < m.mFrom + qA.unquoted.length) ∧
      (∀ g, qA.wholeWord = false →
        (accIn qA dABA anyTest 0 dABA.length g ↔
          occIn dABA qA.unquoted (qNorm qA) 0 dABA.length g))) :=
  ⟨by decide, by decide,
    matchAll_greedy_exhaustive qA dABA anyTest 5 (by decide) (by decide)⟩

/-- One step of the instrumented string chunk trace: the head is the chunk
`(max(lo, pos - chunkSize - len), pos)` and the tail is empty (match found
or range start reached) or the trace continued at `pos - chunkSize`. -/
theorem prevChunksAux_step (acc : Nat → Bool) (lo len pos fl : Nat) :
    prevChunksAux acc lo len pos (fl + 1)
        = [(max lo (pos - (chunkSize + len)), pos)] ∨
    prevChunksAux acc lo len pos (fl + 1)
        = (max lo (pos - (chunkSize + len)), pos)
            :: prevChunksAux acc lo len (pos - chunkSize) fl := by
  have heq : prevChunksAux acc lo len pos (fl + 1)
      = (max lo (pos - (chunkSize + len)), pos) ::
        (match drainLastAux acc (max lo (pos - (chunkSize + len)))
            (candCount (max lo (pos - (chunkSize + len))) pos len) none with
         | some _ => []
         | none => if max lo (pos - (chunkSize + len)) = lo then []
                   else prevChunksAux acc lo len (pos - chunkSize) fl) := rfl
  rcases hdl : drainLastAux acc (max lo (pos - (chunkSize + len)))
      (candCount (max lo (pos - (chunkSize + len))) pos len) none with _ | r
  · by_cases hsl : max lo (pos - (chunkSize + len)) = lo
    · left
      rw [heq, hdl]
      show (max lo (pos - (chunkSize + len)), pos)
          :: (if max lo (pos - (chunkSize + len)) = lo then []
              else prevChunksAux acc lo len (pos - chunkSize) fl) = _
      rw [if_pos hsl]
    · right
      rw [heq, hdl]
      show (max lo (pos - (chunkSize + len)), pos)
          :: (if max lo (pos - (chunkSize + len)) = lo then []
              else prevChunksAux acc lo len (pos - chunkSize) fl) = _
      rw [if_neg hsl]
  · left
    rw [heq, hdl]

/-- Element `i` of the instrumented string chunk trace: the chunk upper
bound decreases by exactly one `chunkSize` per rescan and the chunk start
stays `chunkSize + len` below it (clamped at the range start). -/
theorem prevChunksAux_elem (acc : Nat → Bool) (lo len : Nat) :
    ∀ (fuel pos i : Nat), i < (prevChunksAux acc lo len pos fuel).length →
      (prevChunksAux acc lo len pos fuel).getD i (0, 0)
        = (max lo (pos - i * chunkSize - (chunkSize + len)), pos - i * chunkSize) := by
  intro fuel
  induction fuel with
  | zero =>
    intro pos i h
    simp [prevChunksAux] at h
  | succ fl ih =>
    intro pos i h
    rcases prevChunksAux_step acc lo len pos fl with hstep | hstep <;> rw [hstep] at h ⊢
    · have hi0 : i = 0 := by
        simp at h
        omega
      subst hi0
      simp
    · match i with
      | 0 =>
        simp
      | i + 1 =>
        rw [List.getD_cons_succ]
        simp only [List.length_cons] at h
        rw [ih (pos - chunkSize) i (by omega)]
        have hcs : chunkSize = 10000 := rfl
        rw [Prod.mk.injEq]
        constructor
        · simp only [hcs]
          have : pos - 10000 - i * 10000 = pos - (i + 1) * 10000 := by
            rw [Nat.succ_mul]
            omega
          omega
        · simp only [hcs]
          rw [Nat.succ_mul]
          omega

/-- One step of the instrumented regexp chunk trace. -/
theorem rPrevTraceAux_step (last : Nat → Nat → Option MatchRec) (lo hi size fl : Nat) :
    rPrevTraceAux last lo hi size (fl + 1) = [(max lo (hi - size * chunkSize), hi)] ∨
    rPrevTraceAux last lo hi size (fl + 1)
        = (max lo (hi - size * chunkSize), hi) :: rPrevTraceAux last lo hi (size + 1) fl := by
  have heq : rPrevTraceAux last lo hi size (fl + 1)
      = (max lo (hi - size * chunkSize), hi) ::
        (match last (max lo (hi - size * chunkSize)) hi with
         | some r =>
           if max lo (hi - size * chunkSize) = lo
              ∨ max lo (hi - size * chunkSize) + 10 < r.mFrom then []
           else if max lo (hi - size * chunkSize) = lo then []
           else rPrevTraceAux last lo hi (size + 1) fl
         | none => if max lo (hi - size * chunkSize) = lo then []
                   else rPrevTraceAux last lo hi (size + 1) fl) := rfl
  rcases hl : last (max lo (hi - size * chunkSize)) hi with _ | r
  · by_cases hsl : max lo (hi - size * chunkSize) = lo
    · left
      rw [heq, hl]
      show (max lo (hi - size * chunkSize), hi)
          :: (if max lo (hi - size * chunkSize) = lo then []
              else rPrevTraceAux last lo hi (size + 1) fl) = _
      rw [if_pos hsl]
    · right
      rw [heq, hl]
      show (max lo (hi - size * chunkSize), hi)
          :: (if max lo (hi - size * chunkSize) = lo then []
              else rPrevTraceAux last lo hi (size + 1) fl) = _
      rw [if_neg hsl]
  · by_cases hcond : max lo (hi - size * chunkSize) = lo
        ∨ max lo (hi - size * chunkSize) + 10 < r.mFrom
    · left
      rw [heq, hl]
      show (max lo (hi - size * chunkSize), hi)
          :: (if max lo (hi - size * chunkSize) = lo
                ∨ max lo (hi - size * chunkSize) + 10 < r.mFrom then []
              else if max lo (hi - size * chunkSize) = lo then []
              else rPrevTraceAux last lo hi (size + 1) fl) = _
      rw [if_pos hcond]
    · by_cases hsl : max lo (hi - size * chunkSize) = lo
      · exact absurd (Or.inl hsl) hcond
      · right
        rw [heq, hl]
        show (max lo (hi - size * chunkSize), hi)
            :: (if max lo (hi - size * chunkSize) = lo
                  ∨ max lo (hi - size * chunkSize) + 10 < r.mFrom then []
                else if max lo (hi - size * chunkSize) = lo then []
                else rPrevTraceAux last lo hi (size + 1) fl) = _
        rw [if_neg hcond, if_neg hsl]

/-- Element `i` of the instrumented regexp chunk trace: every scan keeps the
upper bound `hi` and the `i`-th scan starts at `max(lo, hi - (size + i) *
chunkSize)` — the scanned region grows by one chunk width per rescan. -/
theorem rPrevTraceAux_elem (last : Nat → Nat → Option MatchRec) (lo hi : Nat) :
    ∀ (fuel size i : Nat), i < (rPrevTraceAux last lo hi size fuel).length →
      (rPrevTraceAux last lo hi size fuel).getD i (0, 0)
        = (max lo (hi - (size + i) * chunkSize), hi) := by
  intro fuel
  induction fuel with
  | zero =>
    intro size i h
    simp [rPrevTraceAux] at h
  | succ fl ih =>
    intro size i h
    rcases rPrevTraceAux_step last lo hi size fl with hstep | hstep <;> rw [hstep] at h ⊢
    · have hi0 : i = 0 := by
        simp at h
        omega
      subst hi0
      simp
    · match i with
      | 0 =>
        simp
      | i + 1 =>
        rw [List.getD_cons_succ]
        simp only [List.length_cons] at h
        rw [ih (size + 1) i (by omega)]
        rw [Prod.mk.injEq]
        constructor
        · have : size + 1 + i = size + (i + 1) := by omega
          rw [this]
        · rfl

/-- The never-accepting predicate has no greatest accepted candidate. -/
theorem greatestAcc_accNone : ∀ (c lo : Nat), greatestAcc accNone lo c = none := by
  intro c
  induction c with
  | zero =>
    intro lo
    rfl
  | succ c ih =>
    intro lo
    have heq : greatestAcc accNone lo (c + 1)
        = if accNone (lo + c) then some (lo + c) else greatestAcc accNone lo c := rfl
    rw [heq]
    simp [accNone, ih]

/-- Draining a chunk of a matchless document yields nothing. -/
theorem drainLastAux_accNone (s c : Nat) : drainLastAux accNone s c none = none := by
  rw [drainLastAux_eq, greatestAcc_accNone]
  rfl

/-- Unfolding of the string chunk trace when the chunk has no match and the
chunk start has not reached the range start: the scan continues below. -/
theorem prevChunksAux_cons (acc : Nat → Bool) (lo len pos fl : Nat)
    (hdl : drainLastAux acc (max lo (pos - (chunkSize + len)))
        (candCount (max lo (pos - (chunkSize + len))) pos len) none = none)
    (hsl : max lo (pos - (chunkSize + len)) ≠ lo) :
    prevChunksAux acc lo len pos (fl + 1)
      = (max lo (pos - (chunkSize + len)), pos)
          :: prevChunksAux acc lo len (pos - chunkSize) fl := by
  have heq : prevChunksAux acc lo len pos (fl + 1)
      = (max lo (pos - (chunkSize + len)), pos) ::
        (match drainLastAux acc (max lo (pos - (chunkSize + len)))
            (candCount (max lo (pos - (chunkSize + len))) pos len) none with
         | some _ => []
         | none => if max lo (pos - (chunkSize + len)) = lo then []
                   else prevChunksAux acc lo len (pos - chunkSize) fl) := rfl
  rw [heq, hdl]
  show (max lo (pos - (chunkSize + len)), pos)
      :: (if max lo (pos - (chunkSize + len)) = lo then []
          else prevChunksAux acc lo len (pos - chunkSize) fl) = _
  rw [if_neg hsl]

/-- Unfolding of the string chunk trace when the chunk has no match and the
chunk start has reached the range start: the scan stops. -/
theorem prevChunksAux_last (acc : Nat → Bool) (lo len pos fl : Nat)
    (hdl : drainLastAux acc (max lo (pos - (chunkSize + len)))
        (candCount (max lo (pos - (chunkSize + len))) pos len) none = none)
    (hsl : max lo (pos - (chunkSize + len)) = lo) :
    prevChunksAux acc lo len pos (fl + 1)
      = [(max lo (pos - (chunkSize + len)), pos)] := by
  have heq : prevChunksAux acc lo len pos (fl + 1)
      = (max lo (pos - (chunkSize + len)), pos) ::
        (match drainLastAux acc (max lo (pos - (chunkSize + len)))
            (candCount (max lo (pos - (chunkSize + len))) pos len) none with
         | some _ => []
         | none => if max lo (pos - (chunkSize + len)) = lo then []
                   else prevChunksAux acc lo len (pos - chunkSize) fl) := rfl
  rw [heq, hdl]
  show (max lo (pos - (chunkSize + len)), pos)
      :: (if max lo (pos - (chunkSize + len)) = lo then []
          else prevChunksAux acc lo len (pos - chunkSize) fl) = _
  rw [if_pos hsl]

/-- Claim C5 counterexample: with no matches anywhere, the regexp backward
search over `[0, 50000)` scans regions `[40000, 50000)`, `[30000, 50000)`,
`[20000, 50000)`, `[10000, 50000)`, `[0, 50000)` — the third scanned span
is 30000, not double the second's 20000 (arithmetic, not geometric growth,
and linearly many scans); the string backward search over `[0, 10007)`
(pattern length 1) scans `(6, 10007)` then `(0, 7)` — the second chunk's
span is not double the first's (the fixed-width window merely slides down
by 10000). -/
theorem prevMatchInRange_chunks_not_doubled :
    rPrevTrace noMatches 0 50000
      = [(40000, 50000), (30000, 50000), (20000, 50000), (10000, 50000), (0, 50000)] ∧
    (50000 - 20000 : Nat) ≠ 2 * (50000 - 30000) ∧
    stringPrevChunks accNone 0 1 10007 = [(6, 10007), (0, 7)] ∧
    (7 - 0 : Nat) ≠ 2 * (10007 - 6) := by
  refine ⟨by decide, by decide, ?_, by decide⟩
  have h1 := prevChunksAux_cons accNone 0 1 10007 10008
    (drainLastAux_accNone _ _) (by decide)
  have h2 := prevChunksAux_last accNone 0 1 7 10007
    (drainLastAux_accNone _ _) (by decide)
  have e1 : max 0 (10007 - (chunkSize + 1)) = 6 := by decide
  have e2 : (10007 : Nat) - chunkSize = 7 := by decide
  have e3 : max 0 (7 - (chunkSize + 1)) = 0 := by decide
  rw [e1, e2] at h1
  rw [e3] at h2
  show prevChunksAux accNone 0 1 10007 10009 = [(6, 10007), (0, 7)]
  rw [show (10009 : Nat) = 10008 + 1 from rfl, h1,
      show (10008 : Nat) = 10007 + 1 from rfl, h2]
/-- Claim C5 (amended): backward search does scan a fixed-size chunk of
`chunkSize = 10000` units (extended by the pattern length for literal
search) immediately preceding the upper bound first, but a chunk that
yields no match is not doubled: the string search slides the chunk's upper
bound down by exactly 10000 per rescan (constant chunk span), and the
regexp search rescans `[max(from, to - k * 10000), to)` for `k = 1, 2, 3, …`
(region grows by one chunk width per rescan, arithmetic growth), so the
number of chunk scans is linear in the range size divided by 10000, not
logarithmic. -/
theorem prevMatchInRange_chunk_stride :
    (∀ (acc : Nat → Bool) (lo len fuel pos i : Nat),
      i < (prevChunksAux acc lo len pos fuel).length →
      (prevChunksAux acc lo len pos fuel).getD i (0, 0)
        = (max lo (pos - i * chunkSize - (chunkSize + len)), pos - i * chunkSize)) ∧
    (∀ (last : Nat → Nat → Option MatchRec) (lo hi fuel size i : Nat),
      i < (rPrevTraceAux last lo hi size fuel).length →
      (rPrevTraceAux last lo hi size fuel).getD i (0, 0)
        = (max lo (hi - (size + i) * chunkSize), hi)) := by
  constructor
  · intro acc lo len fuel pos i h
    exact prevChunksAux_elem acc lo len fuel pos i h
  · intro last lo hi fuel size i h
    exact rPrevTraceAux_elem last lo hi fuel size i h

/-- Claim C5 witness: the chunk formulas applied to the head chunks of two
concrete traces. -/
theorem prevMatchInRange_chunk_stride_witness :
    0 < (prevChunksAux accNone 0 1 5 3).length ∧
    (prevChunksAux accNone 0 1 5 3).getD 0 (0, 0)
      = (max 0 (5 - 0 * chunkSize - (chunkSize + 1)), 5 - 0 * chunkSize) ∧
    0 < (rPrevTraceAux noMatches 0 5 1 3).length ∧
    (rPrevTraceAux noMatches 0 5 1 3).getD 0 (0, 0)
      = (max 0 (5 - (1 + 0) * chunkSize), 5) :=
  ⟨by decide, prevMatchInRange_chunk_stride.1 accNone 0 1 3 5 0 (by decide),
   by decide, prevMatchInRange_chunk_stride.2 noMatches 0 5 3 1 0 (by decide)⟩

/-- If every chunk before the `(size + d)`-th fails the acceptance test
(start not at the range start, and any match found starts within 10 units
of the chunk start) while the `(size + d)`-th chunk yields a match passing
it, the loop reaches that chunk and returns that match. -/
theorem rPrevAux_reach (last : Nat → Nat → Option MatchRec) (lo hi : Nat) (r : MatchRec) :
    ∀ (d size fuel : Nat), d < fuel →
      (∀ j, size ≤ j → j < size + d →
        max lo (hi - j * chunkSize) ≠ lo ∧
        ∀ r0, last (max lo (hi - j * chunkSize)) hi = some r0 →
          r0.mFrom ≤ max lo (hi - j * chunkSize) + 10) →
      last (max lo (hi - (size + d) * chunkSize)) hi = some r →
      (max lo (hi - (size + d) * chunkSize) = lo ∨
        max lo (hi - (size + d) * chunkSize) + 10 < r.mFrom) →
      rPrevAux last lo hi size fuel = some r := by
  intro d
  induction d with
  | zero =>
    intro size fuel hfu hfail hlast hcond
    rcases fuel with _ | fl
    · exact absurd hfu (by omega)
    · simp only [Nat.add_zero] at hlast hcond
      have heq : rPrevAux last lo hi size (fl + 1)
          = (match last (max lo (hi - size * chunkSize)) hi with
             | some r0 =>
               if max lo (hi - size * chunkSize) = lo
                  ∨ max lo (hi - size * chunkSize) + 10 < r0.mFrom
               then some r0
               else if max lo (hi - size * chunkSize) = lo then none
               else rPrevAux last lo hi (size + 1) fl
             | none => if max lo (hi - size * chunkSize) = lo then none
                       else rPrevAux last lo hi (size + 1) fl) := rfl
      rw [heq, hlast]
      show (if max lo (hi - size * chunkSize) = lo
              ∨ max lo (hi - size * chunkSize) + 10 < r.mFrom
            then some r
            else if max lo (hi - size * chunkSize) = lo then none
            else rPrevAux last lo hi (size + 1) fl) = some r
      rw [if_pos hcond]
  | succ d ih =>
    intro size fuel hfu hfail hlast hcond
    rcases fuel with _ | fl
    · exact absurd hfu (by omega)
    · have heq : rPrevAux last lo hi size (fl + 1)
          = (match last (max lo (hi - size * chunkSize)) hi with
             | some r0 =>
               if max lo (hi - size * chunkSize) = lo
                  ∨ max lo (hi - size * chunkSize) + 10 < r0.mFrom
               then some r0
               else if max lo (hi - size * chunkSize) = lo then none
               else rPrevAux last lo hi (size + 1) fl
             | none => if max lo (hi - size * chunkSize) = lo then none
                       else rPrevAux last lo hi (size + 1) fl) := rfl
      rw [heq]
      have hj := hfail size (Nat.le_refl _) (by omega)
      have hnext : rPrevAux last lo hi (size + 1) fl = some r := by
        apply ih (size + 1) fl (by omega)
        · intro j hj1 hj2
          exact hfail j (by omega) (by omega)
        · have he : size + 1 + d = size + (d + 1) := by omega
          rw [he]
          exact hlast
        · have he : size + 1 + d = size + (d + 1) := by omega
          rw [he]
          exact hcond
      rcases hl : last (max lo (hi - size * chunkSize)) hi with _ | r0
      · show (if max lo (hi - size * chunkSize) = lo then none
              else rPrevAux last lo hi (size + 1) fl) = some r
        rw [if_neg hj.1]
        exact hnext
      · show (if max lo (hi - size * chunkSize) = lo
                ∨ max lo (hi - size * chunkSize) + 10 < r0.mFrom
              then some r0
              else if max lo (hi - size * chunkSize) = lo then none
              else rPrevAux last lo hi (size + 1) fl) = some r
        have hcond0 : ¬ (max lo (hi - size * chunkSize) = lo
            ∨ max lo (hi - size * chunkSize) + 10 < r0.mFrom) := by
          rintro (h | h)
          · exact hj.1 h
          · have := hj.2 r0 hl
            omega
        rw [if_neg hcond0, if_neg hj.1]
        exact hnext

/-- Any match the loop returns was produced by some chunk whose start was
the range start or more than 10 units before the match start. -/
theorem rPrevAux_sound (last : Nat → Nat → Option MatchRec) (lo hi : Nat) (r : MatchRec) :
    ∀ (fuel size : Nat), rPrevAux last lo hi size fuel = some r →
      ∃ k, size ≤ k ∧ last (max lo (hi - k * chunkSize)) hi = some r ∧
        (max lo (hi - k * chunkSize) = lo ∨
          max lo (hi - k * chunkSize) + 10 < r.mFrom) := by
  intro fuel
  induction fuel with
  | zero =>
    intro size h
    have h' : last lo hi = some r := h
    have hz : hi - (size + hi) * chunkSize = 0 := by
      simp only [chunkSize]
      omega
    have hm : max lo (hi - (size + hi) * chunkSize) = lo := by
      rw [hz]
      simp
    exact ⟨size + hi, by omega, by rw [hm]; exact h', Or.inl hm⟩
  | succ fl ih =>
    intro size h
    have heq : rPrevAux last lo hi size (fl + 1)
        = (match last (max lo (hi - size * chunkSize)) hi with
           | some r0 =>
             if max lo (hi - size * chunkSize) = lo
                ∨ max lo (hi - size * chunkSize) + 10 < r0.mFrom
             then some r0
             else if max lo (hi - size * chunkSize) = lo then none
             else rPrevAux last lo hi (size + 1) fl
           | none => if max lo (hi - size * chunkSize) = lo then none
                     else rPrevAux last lo hi (size + 1) fl) := rfl
    rw [heq] at h
    rcases hl : last (max lo (hi - size * chunkSize)) hi with _ | r0 <;> rw [hl] at h
    · change (if max lo (hi - size * chunkSize) = lo then none
              else rPrevAux last lo hi (size + 1) fl) = some r at h
      by_cases hsl : max lo (hi - size * chunkSize) = lo
      · rw [if_pos hsl] at h
        cases h
      · rw [if_neg hsl] at h
        obtain ⟨k, hk1, hk2, hk3⟩ := ih (size + 1) h
        exact ⟨k, by omega, hk2, hk3⟩
    · change (if max lo (hi - size * chunkSize) = lo
                ∨ max lo (hi - size * chunkSize) + 10 < r0.mFrom
              then some r0
              else if max lo (hi - size * chunkSize) = lo then none
              else rPrevAux last lo hi (size + 1) fl) = some r at h
      by_cases hcond : max lo (hi - size * chunkSize) = lo
          ∨ max lo (hi - size * chunkSize) + 10 < r0.mFrom
      · rw [if_pos hcond] at h
        injection h with h
        subst h
        exact ⟨size, Nat.le_refl _, hl, hcond⟩
      · rw [if_neg hcond] at h
        have hsl : ¬ max lo (hi - size * chunkSize) = lo := fun hh => hcond (Or.inl hh)
        rw [if_neg hsl] at h
        obtain ⟨k, hk1, hk2, hk3⟩ := ih (size + 1) h
        exact ⟨k, by omega, hk2, hk3⟩

/-- Claim C6: in backward regexp search, a match found in a chunk is
returned only if the chunk's start equals the absolute range start (then it
is accepted unconditionally) or the match's start offset is more than 10
units past the chunk start; a match failing both conditions causes the
chunk to be grown and rescanned instead of being returned.  Part one:
whenever chunks `size = 1, …, k-1` all fail the test (their start is not
the range start and any match they yield starts within 10 units of the
chunk start) and chunk `k` yields a match passing it, that match is
returned.  Part two: any returned match passed the test in the chunk that
produced it. -/
theorem regexp_prev_chunk_accept :
    (∀ (last : Nat → Nat → Option MatchRec) (lo hi k : Nat) (r : MatchRec),
      1 ≤ k →
      (∀ j, 1 ≤ j → j < k →
        max lo (hi - j * chunkSize) ≠ lo ∧
        ∀ r0, last (max lo (hi - j * chunkSize)) hi = some r0 →
          r0.mFrom ≤ max lo (hi - j * chunkSize) + 10) →
      last (max lo (hi - k * chunkSize)) hi = some r →
      (max lo (hi - k * chunkSize) = lo ∨ max lo (hi - k * chunkSize) + 10 < r.mFrom) →
      rPrevMatchInRange last lo hi = some r) ∧
    (∀ (last : Nat → Nat → Option MatchRec) (lo hi : Nat) (r : MatchRec),
      rPrevMatchInRange last lo hi = some r →
      ∃ k, 1 ≤ k ∧ last (max lo (hi - k * chunkSize)) hi = some r ∧
        (max lo (hi - k * chunkSize) = lo ∨
          max lo (hi - k * chunkSize) + 10 < r.mFrom)) := by
  constructor
  · intro last lo hi k r hk hfail hlast hcond
    have hk1 : 1 + (k - 1) = k := by omega
    have hd : k - 1 < hi + 2 := by
      by_cases hk2 : 2 ≤ k
      · have h1 := (hfail (k - 1) (by omega) (by omega)).1
        simp only [chunkSize] at h1
        omega
      · omega
    show rPrevAux last lo hi 1 (hi + 2) = some r
    apply rPrevAux_reach last lo hi r (k - 1) 1 (hi + 2) hd
    · intro j hj1 hj2
      exact hfail j hj1 (by omega)
    · rw [hk1]
      exact hlast
    · rw [hk1]
      exact hcond
  · intro last lo hi r h
    have h' : rPrevAux last lo hi 1 (hi + 2) = some r := h
    obtain ⟨k, hk1, hk2, hk3⟩ := rPrevAux_sound last lo hi r (hi + 2) 1 h'
    exact ⟨k, hk1, hk2, hk3⟩

/-- Claim C6 witness: with every chunk's last match starting three units
past the chunk start, the size-1 chunk over `[5000, 15000)` fails the test
(its match starts at 5003, within 10 of 5000) and the grown size-2 chunk
starts at the range start 0, so its match `[3, 4)` is accepted. -/
theorem regexp_prev_chunk_accept_witness :
    lastNear (max 0 (15000 - 2 * chunkSize)) 15000 = some ⟨3, 4⟩ ∧
    (max 0 (15000 - 2 * chunkSize) = 0 ∨
      max 0 (15000 - 2 * chunkSize) + 10 < (⟨3, 4⟩ : MatchRec).mFrom) ∧
    rPrevMatchInRange lastNear 0 15000 = some ⟨3, 4⟩ := by
  refine ⟨by decide, Or.inl (by decide), ?_⟩
  have hfail : ∀ j, 1 ≤ j → j < 2 →
      max 0 (15000 - j * chunkSize) ≠ 0 ∧
      ∀ r0, lastNear (max 0 (15000 - j * chunkSize)) 15000 = some r0 →
        r0.mFrom ≤ max 0 (15000 - j * chunkSize) + 10 := by
    intro j h1 h2
    have hj : j = 1 := by omega
    subst hj
    refine ⟨by decide, ?_⟩
    intro r0 hr0
    rw [show lastNear (max 0 (15000 - 1 * chunkSize)) 15000
        = some (⟨5003, 5004⟩ : MatchRec) from by decide] at hr0
    injection hr0 with hr0
    subst hr0
    decide
  exact regexp_prev_chunk_accept.1 lastNear 0 15000 2 ⟨3, 4⟩ (by decide) hfail
    (by decide) (Or.inl (by decide))
